import Mathlib

/-!
Shallow embedding of the kuberollouttrigger Go program, for checking the
natural-language specification against the code.

Strings are modelled as `List Char` (`Str`); Go byte strings of interest here
are valid UTF-8, and the claims do not depend on invalid-UTF-8 corner cases.
The embedding covers:

* `internal/payload/payload.go` — the event envelope: strict JSON decoding
  (mirroring `encoding/json`'s `Decoder.Decode` with `DisallowUnknownFields`
  and the `Decoder.More` trailing-content check), field validation,
  `ImageRefs`, and `ToJSON` (mirroring `json.Marshal`, which HTML-escapes).
* `internal/oidc` — the token validator's control flow (`ValidateToken`),
  with the JWT library's parse/verify stage abstracted to outcome flags
  carried by the token model, and `fetchJWKS` key-set processing including
  base64url decoding.
* `internal/k8s/restarter.go` — `FindMatchingDeployments` and
  `RestartDeployment` (the strategic-merge patch body).
* the worker handler in `main.go` — per-envelope aggregation of matches into
  a map keyed by `namespace ++ "/" ++ name` and the restart loop.
* `internal/web/server.go` — `handleEvent`'s status-code decision chain and
  the 1 MiB body cap.
* `internal/config` — the required-field validation of `ParseWebConfig` and
  `ParseWorkerConfig`.
-/

/-- Go strings, modelled as character lists. -/
abbrev Str := List Char

/-- Left brace character (written via its code point). -/
def lbrace : Char := '\x7b'

/-- Right brace character (written via its code point). -/
def rbrace : Char := '\x7d'

/-- Go `strings.HasPrefix p s` (here `hasPfx s p`): `p` is a prefix of `s`. -/
def hasPfx (s p : Str) : Bool := p.isPrefixOf s

/-- Go `strings.Contains(s, "/")` specialised to a single character. -/
def containsChar (s : Str) (c : Char) : Bool := s.contains c

/-! ### JSON values and the `encoding/json` scanner, embedded

`encoding/json` whitespace is space, tab, carriage return, newline. String
literals reject raw control characters below 0x20, accept the escapes
`\" \\ \/ \b \f \n \r \t \uXXXX`, and resolve UTF-16 surrogate pairs (a lone
surrogate becomes U+FFFD). Numbers follow the JSON grammar (no leading zeros).
The value parser recurses on a fuel counter, decremented on every nested
parser call; the top-level entry point supplies `input.length + 1` fuel, which
every input accepted by Go's scanner stays within (each unit of fuel is paid
for by at most one consumed character plus one array/object entry). -/

/-- A parsed JSON value. Numbers keep their raw characters: the envelope
schema has no numeric field, so a number anywhere is a type mismatch and its
value is never consulted. -/
inductive Json where
  | null
  | bool (b : Bool)
  | num (raw : Str)
  | str (s : Str)
  | arr (elems : List Json)
  | obj (members : List (Str × Json))

/-- Go `encoding/json` `isSpace`. -/
def isJsonWs (c : Char) : Bool := c == ' ' || c == '\t' || c == '\r' || c == '\n'

/-- Skip `encoding/json` whitespace. -/
def skipWs : Str → Str
  | c :: cs => if isJsonWs c then skipWs cs else c :: cs
  | [] => []

/-- Value of one hex digit, upper or lower case (Go `getu4`). -/
def hexVal (c : Char) : Option Nat :=
  let n := c.toNat
  if 48 ≤ n ∧ n ≤ 57 then some (n - 48)
  else if 97 ≤ n ∧ n ≤ 102 then some (n - 97 + 10)
  else if 65 ≤ n ∧ n ≤ 70 then some (n - 65 + 10)
  else none

/-- Four hex digits to their 16-bit value. -/
def hex4 (a b c d : Char) : Option Nat := do
  let va ← hexVal a
  let vb ← hexVal b
  let vc ← hexVal c
  let vd ← hexVal d
  return ((va * 16 + vb) * 16 + vc) * 16 + vd

/-- UTF-16 surrogate range test (Go `utf16.IsSurrogate`). -/
def isSurrogate (n : Nat) : Bool := 0xD800 ≤ n && n < 0xE000

/-- High-surrogate test. -/
def isHighSurrogate (n : Nat) : Bool := 0xD800 ≤ n && n < 0xDC00

/-- Low-surrogate test. -/
def isLowSurrogate (n : Nat) : Bool := 0xDC00 ≤ n && n < 0xE000

/-- The single-character escapes Go's `unquoteBytes` accepts after `\`. -/
def unescapeChar : Char → Option Char
  | '"' => some '"'
  | '\\' => some '\\'
  | '/' => some '/'
  | 'b' => some (Char.ofNat 8)
  | 'f' => some (Char.ofNat 12)
  | 'n' => some '\n'
  | 'r' => some '\r'
  | 't' => some '\t'
  | _ => none

/-- Combine a surrogate pair into its code point (Go `utf16.DecodeRune`). -/
def surrogatePairChar (hi lo : Nat) : Char :=
  Char.ofNat (0x10000 + (hi - 0xD800) * 0x400 + (lo - 0xDC00))

/-- Parse a JSON string body after the opening quote, undoing escapes, as Go's
scanner plus `unquoteBytes` do: literal characters must not be `"`, `\` or a
control character; a high surrogate escape pairs with an immediately following
low surrogate escape, and an unpaired surrogate yields U+FFFD with parsing
resuming at the following characters. Returns the decoded body and the rest of
the input after the closing quote. -/
def parseStringBody : Str → Option (Str × Str)
  | '"' :: rest => some ([], rest)
  | '\\' :: 'u' :: a :: b :: c :: d :: '\\' :: 'u' :: a2 :: b2 :: c2 :: d2 :: rest2 =>
    match hex4 a b c d with
    | none => none
    | some n =>
      if isSurrogate n then
        match hex4 a2 b2 c2 d2 with
        | some m =>
          if isHighSurrogate n && isLowSurrogate m then
            (parseStringBody rest2).map fun (s, r) => (surrogatePairChar n m :: s, r)
          else
            (parseStringBody ('\\' :: 'u' :: a2 :: b2 :: c2 :: d2 :: rest2)).map
              fun (s, r) => ('\uFFFD' :: s, r)
        | none =>
          (parseStringBody ('\\' :: 'u' :: a2 :: b2 :: c2 :: d2 :: rest2)).map
            fun (s, r) => ('\uFFFD' :: s, r)
      else
        (parseStringBody ('\\' :: 'u' :: a2 :: b2 :: c2 :: d2 :: rest2)).map
          fun (s, r) => (Char.ofNat n :: s, r)
  | '\\' :: 'u' :: a :: b :: c :: d :: rest =>
    match hex4 a b c d with
    | none => none
    | some n =>
      if isSurrogate n then
        (parseStringBody rest).map fun (s, r) => ('\uFFFD' :: s, r)
      else
        (parseStringBody rest).map fun (s, r) => (Char.ofNat n :: s, r)
  | '\\' :: e :: rest =>
    match unescapeChar e with
    | some ch => (parseStringBody rest).map fun (s, r) => (ch :: s, r)
    | none => none
  | c :: rest =>
    if c.toNat < 0x20 then none
    else (parseStringBody rest).map fun (s, r) => (c :: s, r)
  | [] => none

/-- ASCII digit test. -/
def isDigitCh (c : Char) : Bool := '0' ≤ c && c ≤ '9'

/-- Take a run of ASCII digits. -/
def takeDigits : Str → Str × Str
  | c :: cs =>
    if isDigitCh c then
      let (ds, r) := takeDigits cs
      (c :: ds, r)
    else ([], c :: cs)
  | [] => ([], [])

/-- Parse a JSON number per the RFC 8259 grammar Go's scanner enforces:
optional minus; `0` or a nonzero digit followed by digits; optional fraction
with at least one digit; optional exponent with at least one digit. Returns
the raw consumed characters. -/
def parseNumber (cs : Str) : Option (Str × Str) :=
  let (sgn, cs1) : Str × Str := match cs with
    | '-' :: r => (['-'], r)
    | _ => ([], cs)
  match cs1 with
  | c :: cs2 =>
    if c = '0' then
      parseNumberFracExp (sgn ++ [c]) cs2
    else if isDigitCh c then
      let (ds, cs3) := takeDigits cs2
      parseNumberFracExp (sgn ++ c :: ds) cs3
    else none
  | [] => none
where
  /-- Optional fraction and exponent parts. -/
  parseNumberFracExp (acc : Str) (cs : Str) : Option (Str × Str) :=
    let (acc1, cs1) : Str × Str := match cs with
      | '.' :: r =>
        match takeDigits r with
        | ([], _) => ([], [])
        | (ds, r') => (acc ++ '.' :: ds, r')
      | _ => (acc, cs)
    if acc1 = [] then none
    else match cs1 with
      | 'e' :: r | 'E' :: r =>
        let (sgn2, r1) : Str × Str := match r with
          | '+' :: r' => (['+'], r')
          | '-' :: r' => (['-'], r')
          | _ => ([], r)
        match takeDigits r1 with
        | ([], _) => none
        | (ds, r2) => some (acc1 ++ 'e' :: sgn2 ++ ds, r2)
      | _ => some (acc1, cs1)

mutual

/-- Parse one JSON value (fuel-recursive; callers pass `input.length + 1`). -/
def parseVal (fuel : Nat) (cs : Str) : Option (Json × Str) :=
  match fuel with
  | 0 => none
  | fuel + 1 =>
    match skipWs cs with
    | 'n' :: 'u' :: 'l' :: 'l' :: r => some (.null, r)
    | 't' :: 'r' :: 'u' :: 'e' :: r => some (.bool true, r)
    | 'f' :: 'a' :: 'l' :: 's' :: 'e' :: r => some (.bool false, r)
    | '"' :: r =>
      (parseStringBody r).map fun (s, r') => (.str s, r')
    | '[' :: r =>
      match skipWs r with
      | ']' :: r' => some (.arr [], r')
      | r' =>
        (parseElems fuel r').map fun (es, r'') => (.arr es, r'')
    | c :: r =>
      if c = lbrace then
        match skipWs r with
        | x :: r' =>
          if x = rbrace then some (.obj [], r')
          else (parseMembers fuel (x :: r')).map fun (ms, r'') => (.obj ms, r'')
        | [] => none
      else if c = '-' || isDigitCh c then
        (parseNumber (c :: r)).map fun (raw, r') => (.num raw, r')
      else none
    | [] => none

/-- Parse one or more comma-separated array elements up to `]`. -/
def parseElems (fuel : Nat) (cs : Str) : Option (List Json × Str) :=
  match fuel with
  | 0 => none
  | fuel + 1 =>
    match parseVal fuel cs with
    | none => none
    | some (v, r) =>
      match skipWs r with
      | ',' :: r' =>
        (parseElems fuel r').map fun (vs, r'') => (v :: vs, r'')
      | ']' :: r' => some ([v], r')
      | _ => none

/-- Parse one or more `"key": value` members up to the closing brace. -/
def parseMembers (fuel : Nat) (cs : Str) : Option (List (Str × Json) × Str) :=
  match fuel with
  | 0 => none
  | fuel + 1 =>
    match skipWs cs with
    | '"' :: r =>
      match parseStringBody r with
      | none => none
      | some (key, r1) =>
        match skipWs r1 with
        | ':' :: r2 =>
          match parseVal fuel r2 with
          | none => none
          | some (v, r3) =>
            match skipWs r3 with
            | ',' :: r4 =>
              (parseMembers fuel r4).map fun (ms, r5) => ((key, v) :: ms, r5)
            | x :: r4 =>
              if x = rbrace then some ([(key, v)], r4) else none
            | [] => none
        | _ => none
    | _ => none

end

/-- Go `Decoder.More`: peek past whitespace; there is "more" when a character
remains that is neither `]` nor the closing brace. (This is the exact
condition `payload.ParseAndValidate` uses to reject trailing content.) -/
def jsonMore (cs : Str) : Bool :=
  match skipWs cs with
  | [] => false
  | c :: _ => !(c == ']' || c = rbrace)

/-! ### The event envelope (`internal/payload/payload.go`) -/

/-- `payload.Event`: the webhook event payload. -/
structure Event where
  Image : Str
  Tags : List Str
deriving DecidableEq

/-- ASCII case folding of one character (Go's `encoding/json` folds only
ASCII letters when matching object keys to struct fields). -/
def asciiFoldChar (c : Char) : Char :=
  if 'A' ≤ c && c ≤ 'Z' then Char.ofNat (c.toNat + 32) else c

/-- ASCII-case-insensitive equality, as `encoding/json` field matching uses. -/
def asciiEqFold (a b : Str) : Bool := a.map asciiFoldChar == b.map asciiFoldChar

/-- Decode one element of the `tags` array: Go decodes a JSON string into a
`string` slice element; `null` leaves the zero value `""`; anything else is a
type mismatch. -/
def decodeTagElem : Json → Option Str
  | .str s => some s
  | .null => some []
  | _ => none

/-- Fold the members of the envelope object into an `Event`, as
`Decoder.Decode` with `DisallowUnknownFields` does: keys match the `image` and
`tags` fields ASCII-case-insensitively, later duplicates overwrite, `null`
leaves a string field unchanged and resets a slice field, any other type is a
mismatch, and a key matching neither field is an unknown-field error. -/
def decodeEventMembers (evt : Event) : List (Str × Json) → Option Event
  | [] => some evt
  | (k, v) :: ms =>
    if asciiEqFold k ("image".data) then
      match v with
      | .str s => decodeEventMembers { evt with Image := s } ms
      | .null => decodeEventMembers evt ms
      | _ => none
    else if asciiEqFold k ("tags".data) then
      match v with
      | .arr es =>
        match es.mapM decodeTagElem with
        | some ts => decodeEventMembers { evt with Tags := ts } ms
        | none => none
      | .null => decodeEventMembers { evt with Tags := [] } ms
      | _ => none
    else none

/-- Decode a JSON value into an `Event` (Go: a top-level `null` leaves the
zero value; only an object is otherwise accepted). -/
def decodeEvent : Json → Option Event
  | .null => some ⟨[], []⟩
  | .obj ms => decodeEventMembers ⟨[], []⟩ ms
  | _ => none

/-- `payload.ValidateEvent`: the field checks, in source order. -/
def ValidateEvent (evt : Event) (allowedPfx : Str) : Except String Unit :=
  if evt.Image = [] then .error "missing required field: image"
  else if evt.Tags = [] then
    .error "missing required field: tags (must be a non-empty array)"
  else match checkTagsNonEmpty 0 evt.Tags with
    | .error e => .error e
    | .ok () =>
      if !hasPfx evt.Image allowedPfx then
        .error "image does not start with allowed prefix"
      else if !containsChar evt.Image '/' then
        .error "image is not a valid container image reference"
      else .ok ()
where
  /-- The `for i, tag := range evt.Tags` loop rejecting the first empty tag. -/
  checkTagsNonEmpty (i : Nat) : List Str → Except String Unit
    | [] => .ok ()
    | t :: ts =>
      if t = [] then .error ("tags[" ++ toString i ++ "] is empty")
      else checkTagsNonEmpty (i + 1) ts

/-- `payload.ParseAndValidate`: strict decode of one JSON value, the
`Decoder.More` trailing-content check, then `ValidateEvent`. -/
def ParseAndValidate (data : Str) (allowedPfx : Str) : Except String Event :=
  match parseVal (data.length + 1) data with
  | none => .error "invalid JSON payload"
  | some (j, rest) =>
    match decodeEvent j with
    | none => .error "invalid JSON payload"
    | some evt =>
      if jsonMore rest then .error "invalid JSON payload: unexpected trailing content"
      else match ValidateEvent evt allowedPfx with
        | .error e => .error e
        | .ok () => .ok evt

/-- `Event.ImageRefs`: one `image + ":" + tag` reference per tag, in order. -/
def Event.ImageRefs (e : Event) : List Str :=
  e.Tags.map fun tag => e.Image ++ ':' :: tag

/-! ### `Event.ToJSON`, mirroring `json.Marshal`

`json.Marshal` HTML-escapes by default: `<`, `>`, `&` become `<`,
`>`, `&`; `"` and `\` get backslash escapes, as do `\n`, `\r`,
`\t`; other control characters become `\u00XX`; U+2028 and U+2029 become
` ` and ` `; everything else is emitted literally. Field order is
declaration order: `image` then `tags`, with no whitespace. A `nil` tags
slice would marshal as `null`; the `List` model conflates `nil` with the
empty slice and renders `[]`, which no claim distinguishes since validated
envelopes have nonempty tags. -/

/-- Lowercase hex digit of `n < 16`. -/
def hexDigit (n : Nat) : Char :=
  if n < 10 then Char.ofNat ('0'.toNat + n) else Char.ofNat ('a'.toNat + (n - 10))

/-- One character as `json.Marshal` (with HTML escaping) emits it. -/
def escapeChar (c : Char) : Str :=
  if c = '"' then ['\\', '"']
  else if c = '\\' then ['\\', '\\']
  else if c = '\n' then ['\\', 'n']
  else if c = '\r' then ['\\', 'r']
  else if c = '\t' then ['\\', 't']
  else if c.toNat < 0x20 || c = '<' || c = '>' || c = '&' then
    ['\\', 'u', '0', '0', hexDigit (c.toNat / 16), hexDigit (c.toNat % 16)]
  else if c = Char.ofNat 0x2028 || c = Char.ofNat 0x2029 then
    ['\\', 'u', '2', '0', '2', hexDigit (c.toNat % 16)]
  else [c]

/-- A string rendered as a JSON string literal, escapes included. -/
def quoteStr (s : Str) : Str := '"' :: (s.flatMap escapeChar ++ ['"'])

/-- The comma-separated elements of the marshalled `tags` array. -/
def marshalTagsBody : List Str → Str
  | [] => []
  | [t] => quoteStr t
  | t :: ts => quoteStr t ++ ',' :: marshalTagsBody ts

/-- The marshalled `tags` array. -/
def marshalTags (ts : List Str) : Str := '[' :: (marshalTagsBody ts ++ [']'])

/-- `Event.ToJSON`: the minimized JSON `json.Marshal` produces. -/
def Event.ToJSON (e : Event) : Str :=
  lbrace :: (quoteStr ("image".data) ++ ':' :: quoteStr e.Image
    ++ ',' :: quoteStr ("tags".data) ++ ':' :: marshalTags e.Tags ++ [rbrace])

/-! ### The OIDC validator (`internal/oidc/validator.go`)

RSA signature verification and JWT wire-format parsing live in the
`golang-jwt` library and are abstracted: a token is modelled by the claims it
carries together with the outcome flags of the library's two entry points —
whether `ParseUnverified` succeeds (`parseOk`), and whether signature
verification plus registered-claims validation (`exp`/`aud`/`iss`) also
succeed (`sigAndClaimsOk`). `ValidateToken`'s own control flow — which
library entry point each mode calls, and the `repository_owner` check both
modes share — is embedded directly from the source. `strings.EqualFold` is
modelled by ASCII case folding (Go also folds some non-ASCII letters;
no claim depends on those). -/

/-- The claims subset `oidc.Claims` carries. -/
structure Claims where
  RepositoryOwner : Str
  Repository : Str
deriving DecidableEq

/-- A bearer token, abstracted to its claims and the JWT library's outcomes. -/
structure TokenModel where
  claims : Claims
  parseOk : Bool
  sigAndClaimsOk : Bool
deriving DecidableEq

/-- Go `strings.EqualFold`, restricted to ASCII folding. -/
def strEqualFold (a b : Str) : Bool := a.map asciiFoldChar == b.map asciiFoldChar

/-- In dev mode, `jwt.NewParser(...).ParseUnverified`: parse without signature
verification and without registered-claims validation. -/
def parseUnverified (t : TokenModel) : Option Claims :=
  if t.parseOk then some t.claims else none

/-- In production mode, `jwt.ParseWithClaims` with the JWKS key function:
parse, verify the signature, and validate `exp`/`aud`/`iss`. -/
def parseWithClaims (t : TokenModel) : Option Claims :=
  if t.parseOk && t.sigAndClaimsOk then some t.claims else none

/-- `Validator.ValidateToken`: dev mode parses unverified, production mode
parses with verification; both then enforce the `repository_owner` check via
`strings.EqualFold` before returning the claims. -/
def ValidateToken (devMode : Bool) (allowedOrg : Str) (t : TokenModel) :
    Except String Claims :=
  match (if devMode then parseUnverified t else parseWithClaims t) with
  | none => .error "token validation failed"
  | some claims =>
    if !strEqualFold claims.RepositoryOwner allowedOrg then
      .error "token organization does not match allowed org"
    else .ok claims

/-! ### The JWKS fetch (`Validator.fetchJWKS`)

The HTTP layer is abstracted to the response status code and the decoded
key-set document (`jwksResponse`); the per-entry processing — the `kty`
filter, base64url decoding of modulus and exponent, and assembly of the key
map — is embedded from the source. `base64.RawURLEncoding.DecodeString` is
the unpadded URL alphabet; Go's decoder skips `\r` and `\n`, rejects any
other character outside the alphabet and a final group of one character, and
(in the default non-strict mode) ignores unused trailing bits. -/

/-- `jwkKey`: one entry of the key-set document. -/
structure JwkKey where
  KID : Str
  KTY : Str
  N : Str
  E : Str
deriving DecidableEq

/-- An assembled RSA public key: modulus as a natural (Go `big.Int.SetBytes`)
and exponent as the 64-bit wrapped accumulation the source computes. -/
structure RsaPublicKey where
  N : Nat
  E : Nat
deriving DecidableEq

/-- Value of one base64url alphabet character. -/
def b64UrlVal (c : Char) : Option Nat :=
  if 'A' ≤ c && c ≤ 'Z' then some (c.toNat - 'A'.toNat)
  else if 'a' ≤ c && c ≤ 'z' then some (c.toNat - 'a'.toNat + 26)
  else if '0' ≤ c && c ≤ '9' then some (c.toNat - '0'.toNat + 52)
  else if c = '-' then some 62
  else if c = '_' then some 63
  else none

/-- Decode a run of base64url characters (newlines already removed) into
bytes: full groups of four characters become three bytes; a final group of
three becomes two bytes, of two becomes one byte, of one is invalid. -/
def b64UrlGroups : Str → Option (List Nat)
  | [] => some []
  | [_] => none
  | [a, b] => do
    let va ← b64UrlVal a
    let vb ← b64UrlVal b
    return [va * 4 + vb / 16]
  | [a, b, c] => do
    let va ← b64UrlVal a
    let vb ← b64UrlVal b
    let vc ← b64UrlVal c
    return [va * 4 + vb / 16, (vb % 16) * 16 + vc / 4]
  | a :: b :: c :: d :: rest => do
    let va ← b64UrlVal a
    let vb ← b64UrlVal b
    let vc ← b64UrlVal c
    let vd ← b64UrlVal d
    let tail ← b64UrlGroups rest
    return (va * 4 + vb / 16) :: ((vb % 16) * 16 + vc / 4) :: ((vc % 4) * 64 + vd) :: tail

/-- `base64.RawURLEncoding.DecodeString`: drop `\r`/`\n`, then decode. -/
def b64UrlDecode (s : Str) : Option (List Nat) :=
  b64UrlGroups (s.filter fun c => !(c == '\r' || c == '\n'))

/-- Big-endian byte assembly, Go `big.Int.SetBytes`. -/
def bytesToNat (bs : List Nat) : Nat := bs.foldl (fun acc b => acc * 256 + b) 0

/-- The exponent accumulation `e = e<<8 + int(b)`, which wraps at 64 bits in
Go; the wrapped bit pattern is modelled as a natural below `2^64`. -/
def bytesToExp (bs : List Nat) : Nat :=
  bs.foldl (fun acc b => (acc * 256 + b) % (2 ^ 64)) 0

/-- Processing of one key-set entry inside `fetchJWKS`'s loop: `none` means
the entry is skipped (non-RSA `kty`, or a modulus or exponent that fails
base64url decoding); `some` is the assembled key with its `kid`. -/
def jwkEntryKey (k : JwkKey) : Option (Str × RsaPublicKey) :=
  if k.KTY ≠ "RSA".data then none
  else match b64UrlDecode k.N with
    | none => none
    | some nBytes =>
      match b64UrlDecode k.E with
      | none => none
      | some eBytes => some (k.KID, ⟨bytesToNat nBytes, bytesToExp eBytes⟩)

/-- `Validator.fetchJWKS`, from the response status and decoded document: a
non-200 status fails; otherwise each entry is processed in order, skipped
entries contributing nothing, and the assembled key list is returned — with
no check that it is nonempty. (Later insertions into the Go map overwrite
duplicate `kid`s; the association list keeps both, with lookup finding the
first — claims here do not involve duplicate `kid`s.) -/
def fetchJWKS (status : Nat) (keys : List JwkKey) :
    Except String (List (Str × RsaPublicKey)) :=
  if status ≠ 200 then .error "JWKS endpoint returned non-200 status"
  else .ok (fetchLoop keys)
where
  /-- The `for _, k := range jwks.Keys` loop with its `continue`s. -/
  fetchLoop : List JwkKey → List (Str × RsaPublicKey)
    | [] => []
    | k :: ks =>
      match jwkEntryKey k with
      | none => fetchLoop ks
      | some entry => entry :: fetchLoop ks

/-! ### The restarter (`internal/k8s/restarter.go`) -/

/-- A container from a Deployment's pod template. -/
structure ContainerModel where
  Name : Str
  Image : Str
deriving DecidableEq

/-- A Deployment as `FindMatchingDeployments` consumes it: namespace, name,
and the pod template's containers. -/
structure DeploymentModel where
  Namespace : Str
  Name : Str
  Containers : List ContainerModel
deriving DecidableEq

/-- `k8s.MatchingDeployment`. -/
structure MatchingDeployment where
  Namespace : Str
  Name : Str
  ContainerNames : List Str
deriving DecidableEq, Inhabited

/-- The per-deployment body of `FindMatchingDeployments`: the names of the
containers whose `image` equals `imageRef` byte-exactly. -/
def matchingContainerNames (d : DeploymentModel) (imageRef : Str) : List Str :=
  (d.Containers.filter fun c => c.Image = imageRef).map fun c => c.Name

/-- `Restarter.FindMatchingDeployments` applied to the deployments a given
cluster listing returned: deployments with no matching container are
omitted. -/
def FindMatchingDeployments (deployments : List DeploymentModel) (imageRef : Str) :
    List MatchingDeployment :=
  deployments.foldr
    (fun d acc =>
      let names := matchingContainerNames d imageRef
      if names = [] then acc else ⟨d.Namespace, d.Name, names⟩ :: acc)
    []

/-- The patch types of `k8s.io/apimachinery` that matter here. -/
inductive PatchType where
  | strategicMerge
  | other
deriving DecidableEq

/-- A patch request as `RestartDeployment` issues it to the cluster API. -/
structure PatchRequest where
  Namespace : Str
  Name : Str
  Ptype : PatchType
  Body : Str
deriving DecidableEq

/-- The `fmt.Sprintf` patch body of `RestartDeployment`, with the formatted
`time.Now().UTC().Format(time.RFC3339)` timestamp as a parameter. -/
def restartPatchBody (ts : Str) : Str :=
  [lbrace] ++ "\"spec\":".data
    ++ [lbrace] ++ "\"template\":".data
    ++ [lbrace] ++ "\"metadata\":".data
    ++ [lbrace] ++ "\"annotations\":".data
    ++ [lbrace] ++ "\"kubectl.kubernetes.io/restartedAt\":\"".data
    ++ ts ++ "\"".data ++ [rbrace, rbrace, rbrace, rbrace, rbrace]

/-- `Restarter.RestartDeployment`: the single strategic-merge patch request
it sends for the given namespace and name at timestamp `ts`. -/
def RestartDeployment (ts : Str) (ns name : Str) : PatchRequest :=
  ⟨ns, name, .strategicMerge, restartPatchBody ts⟩

/-! ### The worker handler (`runWorker` in `main.go`)

The cluster listing is abstracted: `listing r` is what
`FindMatchingDeployments(ctx, r)` returned for image reference `r` during the
pass (`none` for a list error, which the handler logs and skips). The
aggregation into `matchMap` — keyed by `namespace ++ "/" ++ name`, merging
container names with map-based deduplication — and the restart loop are
embedded from the source. Go map iteration order is unspecified; the
association-list model uses insertion order for entries and first-seen order
for merged container names, which no claim distinguishes (the claims are
about the underlying sets). -/

/-- The `matchMap` key `m.Namespace + "/" + m.Name`. -/
def matchKey (m : MatchingDeployment) : Str := m.Namespace ++ '/' :: m.Name

/-- Association-list lookup standing in for the Go map read. -/
def lookupMatch (k : Str) : List (Str × MatchingDeployment) → Option MatchingDeployment
  | [] => none
  | (k', m) :: rest => if k' = k then some m else lookupMatch k rest

/-- Association-list store standing in for the Go map write: replaces the
entry at the key if present, otherwise appends. -/
def storeMatch (k : Str) (m : MatchingDeployment) :
    List (Str × MatchingDeployment) → List (Str × MatchingDeployment)
  | [] => [(k, m)]
  | (k', m') :: rest =>
    if k' = k then (k, m) :: rest else (k', m') :: storeMatch k m rest

/-- The container-name merge: existing names, then the new match's names,
deduplicated (the Go code builds a `map[string]bool` and collects its keys;
first-seen order is the model's resolution of map iteration order). -/
def mergeNames (existing incoming : List Str) : List Str :=
  (existing ++ incoming).foldl (fun acc c => if c ∈ acc then acc else acc ++ [c]) []

/-- Add one match to `matchMap`: merge into an existing entry (keeping its
namespace and name) or insert it fresh. -/
def addMatch (mm : List (Str × MatchingDeployment)) (m : MatchingDeployment) :
    List (Str × MatchingDeployment) :=
  let key := matchKey m
  match lookupMatch key mm with
  | some existing =>
    storeMatch key { existing with ContainerNames := mergeNames existing.ContainerNames m.ContainerNames } mm
  | none => storeMatch key m mm

/-- The matches the pass processes, in order: for each image reference, the
listing's matches (a failed listing contributes nothing, as the handler
`continue`s). -/
def collectedMatches (listing : Str → Option (List MatchingDeployment))
    (refs : List Str) : List MatchingDeployment :=
  refs.flatMap fun r => (listing r).getD []

/-- The `matchMap` after the aggregation loops of the worker handler. -/
def buildMatchMap (ms : List MatchingDeployment) : List (Str × MatchingDeployment) :=
  ms.foldl addMatch []

/-- The worker handler's restart targets for an envelope: the values of
`matchMap` built over the envelope's image references; `RestartDeployment`
is called once for each, failures logged and skipped. -/
def workerRestartTargets (listing : Str → Option (List MatchingDeployment))
    (evt : Event) : List MatchingDeployment :=
  (buildMatchMap (collectedMatches listing evt.ImageRefs)).map Prod.snd

/-! ### The web server (`internal/web/server.go`) -/

/-- `maxPayloadSize = 1 << 20`. -/
def maxPayloadSize : Nat := 1 <<< 20

/-- The response of `handleEvent`, abstracted to the status code and whether
a body was written (`http.Error` writes one; the `202` path writes none). -/
structure ResponseModel where
  status : Nat
  bodyWritten : Bool
deriving DecidableEq

/-- `Server.handleEvent`, embedded from the source: content-type gate, bearer
extraction, `ValidateToken`, capped body read, `ParseAndValidate`, publish.
`validate` abstracts `s.validator.ValidateToken` applied to the extracted
token string; `publishOk` is whether `s.publisher.Publish` succeeds on the
canonical JSON. (A body read error and a `ToJSON` failure, the code's 400 and
500 paths, cannot occur in the pure model: reading a byte list cannot fail
and marshalling is total.) -/
def handleEvent (validate : Str → Except String Claims) (publishOk : Bool)
    (imagePfx : Str) (contentType authHeader : Str) (body : Str) : ResponseModel :=
  if !hasPfx contentType ("application/json".data) then ⟨400, true⟩
  else if authHeader = [] || !hasPfx authHeader ("Bearer ".data) then ⟨401, true⟩
  else
    match validate (authHeader.drop 7) with
    | .error _ => ⟨401, true⟩
    | .ok _ =>
      match ParseAndValidate (body.take maxPayloadSize) imagePfx with
      | .error _ => ⟨400, true⟩
      | .ok _ => if publishOk then ⟨202, false⟩ else ⟨502, true⟩

/-! ### Configuration validation (`internal/config/config.go`)

Flag and environment resolution is environment-dependent and out of scope;
the required-field validation both parse functions run on the resolved record
is embedded. -/

/-- The web-mode fields the required-field validation consults. -/
structure WebConfig where
  ValkeyAddr : Str
  GithubOIDCAudience : Str
  GithubAllowedOrg : Str
  AllowedImagePfx : Str
deriving DecidableEq

/-- The worker-mode fields the required-field validation consults. -/
structure WorkerConfig where
  ValkeyAddr : Str
  AllowedImagePfx : Str
deriving DecidableEq

/-- The `missing` list `ParseWebConfig` accumulates. -/
def webConfigMissing (cfg : WebConfig) : List String :=
  (if cfg.ValkeyAddr = [] then ["VALKEY_ADDR / --valkey-addr"] else [])
  ++ (if cfg.GithubOIDCAudience = [] then
        ["GITHUB_OIDC_AUDIENCE / --github-oidc-audience"] else [])
  ++ (if cfg.GithubAllowedOrg = [] then
        ["GITHUB_ALLOWED_ORG / --github-allowed-org"] else [])
  ++ (if cfg.AllowedImagePfx = [] then
        ["ALLOWED_IMAGE_PREFIX / --allowed-image-prefix"] else [])

/-- The required-field validation at the end of `ParseWebConfig`. -/
def parseWebConfigCheck (cfg : WebConfig) : Except String WebConfig :=
  if webConfigMissing cfg ≠ [] then .error "missing required configuration"
  else .ok cfg

/-- The `missing` list `ParseWorkerConfig` accumulates. -/
def workerConfigMissing (cfg : WorkerConfig) : List String :=
  (if cfg.ValkeyAddr = [] then ["VALKEY_ADDR / --valkey-addr"] else [])
  ++ (if cfg.AllowedImagePfx = [] then
        ["ALLOWED_IMAGE_PREFIX / --allowed-image-prefix"] else [])

/-- The required-field validation at the end of `ParseWorkerConfig`. -/
def parseWorkerConfigCheck (cfg : WorkerConfig) : Except String WorkerConfig :=
  if workerConfigMissing cfg ≠ [] then .error "missing required configuration"
  else .ok cfg

/-! ### Auxiliary definitions used by the theorems -/

/-- Whether an `Except` is a success. -/
def exceptIsOk {ε α : Type} : Except ε α → Bool
  | .ok _ => true
  | .error _ => false

/-- Parse one JSON document prefix with the fuel `ParseAndValidate` supplies. -/
def parseJsonDoc (cs : Str) : Option (Json × Str) := parseVal (cs.length + 1) cs

/-- The `(namespace, name)` pair of a match, the unit of the at-most-once
restart claim. -/
def nsName (m : MatchingDeployment) : Str × Str := (m.Namespace, m.Name)

/-- The status-code chain of the `POST /event` handler as the specification
states it: 400 for a content type not beginning `application/json`; else 401
for a missing authorization header, a non-Bearer scheme, or a token failing
validation; else 400 when the body fails envelope parse-and-validate; else
502 when publishing fails; else 202 with no body. Stated from the spec's
words, to be compared with `handleEvent` as embedded from the source. -/
def handleEventSpecStatus (validate : Str → Except String Claims) (publishOk : Bool)
    (imagePfx : Str) (contentType authHeader : Str) (body : Str) : ResponseModel :=
  if !hasPfx contentType ("application/json".data) then ⟨400, true⟩
  else if authHeader = [] || !hasPfx authHeader ("Bearer ".data)
      || !exceptIsOk (validate (authHeader.drop 7)) then ⟨401, true⟩
  else if !exceptIsOk (ParseAndValidate (body.take maxPayloadSize) imagePfx) then
    ⟨400, true⟩
  else if !publishOk then ⟨502, true⟩
  else ⟨202, false⟩

/-- The JSON value denoted by the restart patch body: a single nested path
`spec.template.metadata.annotations` carrying only the `restartedAt` key. -/
def restartPatchJson (ts : Str) : Json :=
  .obj [("spec".data, .obj [("template".data, .obj [("metadata".data,
    .obj [("annotations".data,
      .obj [("kubectl.kubernetes.io/restartedAt".data, .str ts)])])])])]

/-- The JSON value `Event.ToJSON` denotes. -/
def eventJson (e : Event) : Json :=
  .obj [("image".data, .str e.Image), ("tags".data, .arr (e.Tags.map .str))]

/-- A character needing no JSON escaping on either side: not a quote, not a
backslash, not a control character, not HTML-escaped, not a line separator.
Timestamps in RFC3339 form consist of such characters. -/
def plainChar (c : Char) : Bool :=
  !(c = '"' || c = '\\' || c.toNat < 0x20 || c = '<' || c = '>' || c = '&'
    || c = Char.ofNat 0x2028 || c = Char.ofNat 0x2029)

/-! ### Helper lemmas -/

/-- The per-tag loop of `ValidateEvent` succeeds exactly when no tag is the
empty string, whatever the running index. -/
theorem checkTagsNonEmpty_ok_iff (ts : List Str) : ∀ i : Nat,
    ValidateEvent.checkTagsNonEmpty i ts = .ok () ↔ ∀ t ∈ ts, t ≠ [] := by
  induction ts with
  | nil => intro i; simp [ValidateEvent.checkTagsNonEmpty]
  | cons t ts ih =>
    intro i
    by_cases h : t = []
    · simp [ValidateEvent.checkTagsNonEmpty, h]
    · simp [ValidateEvent.checkTagsNonEmpty, h, ih (i + 1)]

/-- `ValidateEvent` succeeds exactly when the image is nonempty, the tags are
nonempty and individually nonempty, the image bears the allowed prefix, and
the image contains a slash. -/
theorem ValidateEvent_ok_iff (e : Event) (pfx : Str) :
    ValidateEvent e pfx = .ok () ↔
      e.Image ≠ [] ∧ e.Tags ≠ [] ∧ (∀ t ∈ e.Tags, t ≠ []) ∧
        hasPfx e.Image pfx = true ∧ containsChar e.Image '/' = true := by
  unfold ValidateEvent
  by_cases h1 : e.Image = []
  · simp [h1]
  · by_cases h2 : e.Tags = []
    · simp [h1, h2]
    · rcases h3 : ValidateEvent.checkTagsNonEmpty 0 e.Tags with e3 | u
      · simp only [h1, h2, if_neg h1, if_neg h2, h3]
        constructor
        · intro hc; exact absurd hc (by simp)
        · rintro ⟨-, -, hall, -⟩
          exact absurd ((checkTagsNonEmpty_ok_iff e.Tags 0).mpr hall) (by simp [h3])
      · have hall : ∀ t ∈ e.Tags, t ≠ [] := (checkTagsNonEmpty_ok_iff e.Tags 0).mp h3
        by_cases h4 : hasPfx e.Image pfx
        · by_cases h5 : containsChar e.Image '/'
          · simp only [h1, h2, if_neg h1, if_neg h2, h3, h4, h5]
            simp only [ne_eq, not_false_eq_true, true_and, and_true]
            constructor
            · intro _; exact ⟨h1, h2, hall⟩
            · intro _
              simp [h4, h5]
          · simp [h1, h2, h3, h4, h5]
        · simp [h1, h2, h3, h4]

/-! ### C8 — image references -/

/-- C8: for every envelope accepted by `ParseAndValidate`, `ImageRefs` has
one element per tag, and its `i`-th element is `image ++ ":" ++ tags[i]`, in
declared order. -/
theorem kuberollout_c8 (data pfx : Str) (e : Event)
    (_hacc : ParseAndValidate data pfx = .ok e) :
    (e.ImageRefs).length = e.Tags.length ∧
      ∀ i : Nat, ∀ h : i < e.Tags.length,
        (e.ImageRefs).get ⟨i, by simpa [Event.ImageRefs] using h⟩
          = e.Image ++ ':' :: e.Tags.get ⟨i, h⟩ := by
  refine ⟨by simp [Event.ImageRefs], ?_⟩
  intro i h
  simp [Event.ImageRefs]

/-- Witness for C8 at a concrete accepted envelope. -/
theorem kuberollout_c8_witness :
    ((⟨"ghcr.io/t/svc".data, ["dev".data]⟩ : Event).ImageRefs).length
      = (["dev".data] : List Str).length :=
  (kuberollout_c8
    ("\x7b\"image\":\"ghcr.io/t/svc\",\"tags\":[\"dev\"]\x7d".data)
    ("ghcr.io/".data) ⟨"ghcr.io/t/svc".data, ["dev".data]⟩ (by rfl)).1

/-! ### C10 — the 1 MiB body cap -/

/-- C10: the handler reads at most `maxPayloadSize = 2^20` bytes of the body
and behaves exactly as if the body were its first `2^20` bytes; oversized
bodies get no dedicated rejection, only whatever envelope validation says
about the truncated prefix. -/
theorem kuberollout_c10 (validate : Str → Except String Claims) (publishOk : Bool)
    (imagePfx contentType authHeader body : Str) :
    handleEvent validate publishOk imagePfx contentType authHeader body
      = handleEvent validate publishOk imagePfx contentType authHeader
          (body.take maxPayloadSize)
    ∧ maxPayloadSize = 2 ^ 20 := by
  refine ⟨?_, by decide⟩
  simp [handleEvent, List.take_take]

/-! ### C9 — the empty allowed prefix is vacuous, but configuration rejects it -/

/-- C9: with an empty allowed prefix the prefix test passes for every image,
so `ValidateEvent` succeeds exactly on the remaining conditions (any image
with a slash, whatever its registry); the restriction is effective only
because both processes' configuration validation rejects an empty
`ALLOWED_IMAGE_PREFIX` at startup. -/
theorem kuberollout_c9 (e : Event) (s : Str) (w : WebConfig) (k : WorkerConfig) :
    hasPfx s [] = true
    ∧ (ValidateEvent e [] = .ok () ↔
        e.Image ≠ [] ∧ e.Tags ≠ [] ∧ (∀ t ∈ e.Tags, t ≠ []) ∧
          containsChar e.Image '/' = true)
    ∧ (w.AllowedImagePfx = [] → ∃ err, parseWebConfigCheck w = .error err)
    ∧ (k.AllowedImagePfx = [] → ∃ err, parseWorkerConfigCheck k = .error err) := by
  refine ⟨by simp [hasPfx, List.isPrefixOf], ?_, ?_, ?_⟩
  · rw [ValidateEvent_ok_iff]
    simp [hasPfx, List.isPrefixOf]
  · intro hw
    have hne : webConfigMissing w ≠ [] := by
      simp [webConfigMissing, hw]
    simp [parseWebConfigCheck, hne]
  · intro hk
    have hne : workerConfigMissing k ≠ [] := by
      simp [workerConfigMissing, hk]
    simp [parseWorkerConfigCheck, hne]

/-- Witness for C9: a configuration with an empty allowed prefix is rejected
by both parse functions. -/
theorem kuberollout_c9_witness :
    (∃ err, parseWebConfigCheck ⟨"v:6379".data, "aud".data, "org".data, []⟩ = .error err)
    ∧ ∃ err, parseWorkerConfigCheck ⟨"v:6379".data, []⟩ = .error err :=
  ⟨(kuberollout_c9 ⟨[], []⟩ [] ⟨"v:6379".data, "aud".data, "org".data, []⟩
      ⟨"v:6379".data, []⟩).2.2.1 rfl,
   (kuberollout_c9 ⟨[], []⟩ [] ⟨"v:6379".data, "aud".data, "org".data, []⟩
      ⟨"v:6379".data, []⟩).2.2.2 rfl⟩

/-! ### C1 — the owner check survives dev mode -/

/-- C1: whenever the token's `repository_owner` is not case-insensitively
equal to the allowed organization, `ValidateToken` fails — in production mode
and in dev mode alike; and dev mode indeed skips signature and registered
claims validation (a token with those checks failing but a matching owner is
accepted), so the owner check is the one check dev mode never disables. -/
theorem kuberollout_c1 (devMode : Bool) (allowedOrg : Str) (t : TokenModel) :
    (strEqualFold t.claims.RepositoryOwner allowedOrg = false →
      exceptIsOk (ValidateToken devMode allowedOrg t) = false)
    ∧ (t.parseOk = true → strEqualFold t.claims.RepositoryOwner allowedOrg = true →
      ValidateToken true allowedOrg t = .ok t.claims) := by
  constructor
  · intro hmm
    cases devMode <;>
      rcases ht : t.parseOk with _ | _ <;>
        rcases hs : t.sigAndClaimsOk with _ | _ <;>
          simp [ValidateToken, parseUnverified, parseWithClaims, ht, hs, hmm, exceptIsOk]
  · intro hp hfold
    simp [ValidateToken, parseUnverified, hp, hfold]

/-- Witness for C1: a dev-mode token with the wrong owner is rejected, and a
dev-mode token with an unverified signature but a case-folded owner match is
accepted. -/
theorem kuberollout_c1_witness :
    exceptIsOk (ValidateToken true ("acme".data) ⟨⟨"evil-org".data, []⟩, true, true⟩)
        = false
    ∧ ValidateToken true ("acme".data) ⟨⟨"AcMe".data, []⟩, true, false⟩
        = .ok ⟨"AcMe".data, []⟩ :=
  ⟨(kuberollout_c1 true ("acme".data) ⟨⟨"evil-org".data, []⟩, true, true⟩).1 (by rfl),
   (kuberollout_c1 true ("acme".data) ⟨⟨"AcMe".data, []⟩, true, false⟩).2 rfl (by rfl)⟩

/-! ### C6 — the status-code chain of `POST /event` -/

/-- C6: the handler's response agrees with the specification's chain — 400
for a content type not beginning `application/json`; else 401 for a missing
authorization header, a non-Bearer scheme, or a failing token; else 400 when
the body fails parse-and-validate; else 502 when publishing fails; else 202
with no body written. -/
theorem kuberollout_c6 (validate : Str → Except String Claims) (publishOk : Bool)
    (imagePfx contentType authHeader body : Str) :
    handleEvent validate publishOk imagePfx contentType authHeader body
      = handleEventSpecStatus validate publishOk imagePfx contentType authHeader body := by
  by_cases hct : hasPfx contentType ("application/json".data)
  · by_cases ha : authHeader = []
    · simp [handleEvent, handleEventSpecStatus, hct, ha]
    · by_cases hb : hasPfx authHeader ("Bearer ".data)
      · rcases hv : validate (authHeader.drop 7) with err | claims
        · simp [handleEvent, handleEventSpecStatus, hct, ha, hb, hv, exceptIsOk]
        · rcases hp : ParseAndValidate (body.take maxPayloadSize) imagePfx with err2 | evt
          · simp [handleEvent, handleEventSpecStatus, hct, ha, hb, hv, hp, exceptIsOk]
          · cases publishOk <;>
              simp [handleEvent, handleEventSpecStatus, hct, ha, hb, hv, hp, exceptIsOk]
      · simp [handleEvent, handleEventSpecStatus, hct, ha, hb]
  · simp [handleEvent, handleEventSpecStatus, hct]

/-! ### C5 — key-set fetch behaviour -/

/-- Counterexample to C5 as stated: a 200 response whose only entry is
non-RSA is skipped, the resulting key set is empty, and the fetch still
succeeds — the code has no emptiness check, so an empty key set is not
fatal. -/
theorem kuberollout_c5_counterexample :
    fetchJWKS 200 [⟨"kid1".data, "EC".data, [], []⟩] = .ok [] := rfl

/-- C5 as amended: entries with non-RSA `kty` or an undecodable modulus or
exponent are skipped without aborting, a non-200 status always fails the
fetch, and a fetch with a 200 status always succeeds — even when every entry
was skipped and the key set is empty. -/
theorem kuberollout_c5_amended (status : Nat) (keys : List JwkKey) :
    (status ≠ 200 → ∃ e, fetchJWKS status keys = .error e)
    ∧ fetchJWKS 200 keys = .ok (keys.filterMap jwkEntryKey)
    ∧ ∀ k ∈ keys, (jwkEntryKey k = none ↔
        k.KTY ≠ "RSA".data ∨ b64UrlDecode k.N = none ∨ b64UrlDecode k.E = none) := by
  refine ⟨?_, ?_, ?_⟩
  · intro hs
    exact ⟨"JWKS endpoint returned non-200 status", by simp [fetchJWKS, hs]⟩
  · have hloop : ∀ ks : List JwkKey, fetchJWKS.fetchLoop ks = ks.filterMap jwkEntryKey := by
      intro ks
      induction ks with
      | nil => rfl
      | cons k ks ih =>
        rcases hk : jwkEntryKey k with _ | entry <;>
          simp [fetchJWKS.fetchLoop, hk, ih, List.filterMap_cons]
    simp [fetchJWKS, hloop]
  · intro k _
    unfold jwkEntryKey
    by_cases h1 : k.KTY = "RSA".data
    · rcases h2 : b64UrlDecode k.N with _ | nb
      · simp [h1, h2]
      · rcases h3 : b64UrlDecode k.E with _ | eb
        · simp [h1, h2, h3]
        · simp [h1, h2, h3]
    · simp [h1]

/-- Witness for the amended C5 at a non-200 status. -/
theorem kuberollout_c5_witness :
    ∃ e, fetchJWKS 404 [] = .error e :=
  (kuberollout_c5_amended 404 []).1 (by decide)

/-! ### C3 — strict envelope parsing, and the trailing-content gap -/

/-- C3, evaluated at the failing input: the code accepts a payload followed
by a stray `]`. `Decoder.More` returns false whenever the next non-space
character is `]` or the closing brace, so `ParseAndValidate`'s
trailing-content check — whose comment says "Ensure no trailing content" and
whose spec says "trailing content rejected" — misses trailing `]` and the
closing brace, and the envelope is accepted. -/
theorem kuberollout_c3 :
    ParseAndValidate
        ("\x7b\"image\":\"ghcr.io/test/myservice\",\"tags\":[\"dev\"]\x7d]".data)
        ("ghcr.io/test/".data)
      = .ok ⟨"ghcr.io/test/myservice".data, ["dev".data]⟩ := rfl

/-! ### C2 — the worker restarts each deployment at most once

Support lemmas about the association-list model of `matchMap`. -/

/-- A `lookupMatch` miss means no entry bears the key. -/
theorem lookupMatch_eq_none (k : Str) (mm : List (Str × MatchingDeployment)) :
    lookupMatch k mm = none ↔ ∀ p ∈ mm, p.1 ≠ k := by
  induction mm with
  | nil => simp [lookupMatch]
  | cons q mm ih =>
    by_cases h : q.1 = k
    · simp [lookupMatch, h]
    · simpa [lookupMatch, h] using ih

/-- A `lookupMatch` hit is an entry of the list. -/
theorem lookupMatch_eq_some_mem (k : Str) (m : MatchingDeployment) :
    ∀ mm : List (Str × MatchingDeployment), lookupMatch k mm = some m → (k, m) ∈ mm := by
  intro mm
  induction mm with
  | nil => simp [lookupMatch]
  | cons q mm ih =>
    obtain ⟨a, b⟩ := q
    by_cases h : a = k
    · intro hl
      simp only [lookupMatch, if_pos h] at hl
      cases hl
      subst h
      exact List.mem_cons_self _ _
    · intro hl
      simp only [lookupMatch, if_neg h] at hl
      exact List.mem_cons_of_mem _ (ih hl)

/-- Storing under an absent key appends the entry at the end. -/
theorem storeMatch_eq_append (k : Str) (m : MatchingDeployment) :
    ∀ mm : List (Str × MatchingDeployment), (∀ p ∈ mm, p.1 ≠ k) →
      storeMatch k m mm = mm ++ [(k, m)] := by
  intro mm
  induction mm with
  | nil => intro _; rfl
  | cons q mm ih =>
    obtain ⟨a, b⟩ := q
    intro h
    have hq : a ≠ k := h (a, b) (by simp)
    have hrest : ∀ p ∈ mm, p.1 ≠ k := fun p hp => h p (by simp [hp])
    simp [storeMatch, hq, ih hrest]

/-- Storing under a present key leaves the key sequence unchanged. -/
theorem storeMatch_map_fst (k : Str) (m : MatchingDeployment) :
    ∀ mm : List (Str × MatchingDeployment), (∃ p ∈ mm, p.1 = k) →
      (storeMatch k m mm).map Prod.fst = mm.map Prod.fst := by
  intro mm
  induction mm with
  | nil => simp
  | cons q mm ih =>
    obtain ⟨a, b⟩ := q
    intro h
    by_cases hq : a = k
    · simp [storeMatch, hq]
    · rcases h with ⟨p, hp, hpk⟩
      rcases List.mem_cons.mp hp with rfl | hp'
      · exact absurd hpk hq
      · simp [storeMatch, hq, ih ⟨p, hp', hpk⟩]

/-- With pairwise-distinct keys, the sole entry under a key is determined. -/
theorem key_entry_unique (k : Str) (m0 : MatchingDeployment) :
    ∀ mm : List (Str × MatchingDeployment), (mm.map Prod.fst).Nodup →
      (k, m0) ∈ mm → ∀ q ∈ mm, q.1 = k → q = (k, m0) := by
  intro mm
  induction mm with
  | nil => simp
  | cons p mm ih =>
    obtain ⟨a, b⟩ := p
    intro hnd hmem q hq hqk
    obtain ⟨x, y⟩ := q
    have hnd' : (mm.map Prod.fst).Nodup := (List.nodup_cons.mp hnd).2
    have ha : a ∉ mm.map Prod.fst := (List.nodup_cons.mp hnd).1
    simp only at hqk
    subst hqk
    rcases List.mem_cons.mp hmem with heq | hmem'
    · rcases List.mem_cons.mp hq with heq2 | hq'
      · rw [heq2]; exact heq.symm ▸ rfl
      · cases heq
        exact absurd (List.mem_map_of_mem Prod.fst hq') ha
    · rcases List.mem_cons.mp hq with heq2 | hq'
      · cases heq2
        exact absurd (List.mem_map_of_mem Prod.fst hmem') ha
      · exact ih hnd' hmem' (x, y) hq' rfl

/-- Membership in `storeMatch` under a present key, given distinct keys: the
new entry, or an old entry under a different key. -/
theorem mem_storeMatch (k : Str) (m m0 : MatchingDeployment) :
    ∀ mm : List (Str × MatchingDeployment), (mm.map Prod.fst).Nodup →
      (k, m0) ∈ mm →
      ∀ p, p ∈ storeMatch k m mm ↔ p = (k, m) ∨ (p ∈ mm ∧ p.1 ≠ k) := by
  intro mm
  induction mm with
  | nil => simp
  | cons q mm ih =>
    obtain ⟨a, b⟩ := q
    intro hnd hmem p
    have hnd' : (mm.map Prod.fst).Nodup := (List.nodup_cons.mp hnd).2
    have ha : a ∉ mm.map Prod.fst := (List.nodup_cons.mp hnd).1
    by_cases hq : a = k
    · subst hq
      have hbm : b = m0 := by
        rcases List.mem_cons.mp hmem with heq | hmem'
        · cases heq; rfl
        · exact absurd (List.mem_map_of_mem Prod.fst hmem') ha
      subst hbm
      simp only [storeMatch, if_pos rfl]
      constructor
      · intro hp
        rcases List.mem_cons.mp hp with rfl | hp'
        · exact Or.inl rfl
        · refine Or.inr ⟨List.mem_cons_of_mem _ hp', ?_⟩
          intro hpk
          exact absurd (hpk ▸ List.mem_map_of_mem Prod.fst hp') ha
      · rintro (rfl | ⟨hp, hpk⟩)
        · exact List.mem_cons_self _ _
        · rcases List.mem_cons.mp hp with rfl | hp'
          · exact absurd rfl hpk
          · exact List.mem_cons_of_mem _ hp'
    · have hmem' : (k, m0) ∈ mm := by
        rcases List.mem_cons.mp hmem with heq | h
        · cases heq; exact absurd rfl hq
        · exact h
      simp only [storeMatch, if_neg hq]
      constructor
      · intro hp
        rcases List.mem_cons.mp hp with rfl | hp'
        · exact Or.inr ⟨List.mem_cons_self _ _, hq⟩
        · rcases (ih hnd' hmem' p).mp hp' with rfl | ⟨hpm, hpk⟩
          · exact Or.inl rfl
          · exact Or.inr ⟨List.mem_cons_of_mem _ hpm, hpk⟩
      · rintro (rfl | ⟨hp, hpk⟩)
        · exact List.mem_cons_of_mem _ ((ih hnd' hmem' _).mpr (Or.inl rfl))
        · rcases List.mem_cons.mp hp with rfl | hp'
          · exact List.mem_cons_self _ _
          · exact List.mem_cons_of_mem _ ((ih hnd' hmem' p).mpr (Or.inr ⟨hp', hpk⟩))

/-- The deduplicating fold behind `mergeNames` yields no duplicates. -/
theorem dedupFold_nodup (l : List Str) :
    ∀ acc : List Str, acc.Nodup →
      (l.foldl (fun acc c => if c ∈ acc then acc else acc ++ [c]) acc).Nodup := by
  induction l with
  | nil => intro acc h; simpa using h
  | cons c l ih =>
    intro acc h
    by_cases hc : c ∈ acc
    · simpa [hc] using ih acc h
    · have : (acc ++ [c]).Nodup := by simp [List.nodup_append, h, hc]
      simpa [hc] using ih (acc ++ [c]) this

/-- Membership in the deduplicating fold is membership in either input. -/
theorem mem_dedupFold (l : List Str) :
    ∀ (acc : List Str) (c : Str),
      c ∈ l.foldl (fun acc c => if c ∈ acc then acc else acc ++ [c]) acc ↔
        c ∈ acc ∨ c ∈ l := by
  induction l with
  | nil => simp
  | cons d l ih =>
    intro acc c
    by_cases hd : d ∈ acc
    · by_cases hcd : c = d
      · subst hcd
        simp only [List.foldl_cons, if_pos hd, ih]
        simp [hd]
      · simp only [List.foldl_cons, if_pos hd, ih]
        simp [hcd]
    · simp only [List.foldl_cons, if_neg hd, ih]
      simp [List.mem_append, or_assoc]

/-- `mergeNames` is deduplicated. -/
theorem mergeNames_nodup (a b : List Str) : (mergeNames a b).Nodup :=
  dedupFold_nodup (a ++ b) [] List.nodup_nil

/-- `mergeNames` is the union of its arguments. -/
theorem mem_mergeNames (a b : List Str) (c : Str) :
    c ∈ mergeNames a b ↔ c ∈ a ∨ c ∈ b := by
  unfold mergeNames
  rw [mem_dedupFold]
  simp

/-- The `matchMap` fold invariant: keys really are each entry's own
`namespace ++ "/" ++ name` and are pairwise distinct; an entry's container
names are the union of those of the processed matches sharing its key (plus
whatever the starting accumulator held); a key is present exactly when some
processed match (or starting entry) bears it; and an entry is deduplicated
unless it came from the accumulator untouched or from a single processed
match. -/
theorem buildMatchMap_invariant :
    ∀ (occs : List MatchingDeployment) (mm : List (Str × MatchingDeployment)),
      (∀ p ∈ mm, matchKey p.2 = p.1) →
      ((mm.map Prod.fst).Nodup) →
      (∀ p ∈ occs.foldl addMatch mm, matchKey p.2 = p.1)
      ∧ ((occs.foldl addMatch mm).map Prod.fst).Nodup
      ∧ (∀ p ∈ occs.foldl addMatch mm, ∀ c : Str,
          c ∈ p.2.ContainerNames ↔
            (∃ q ∈ mm, q.1 = p.1 ∧ c ∈ q.2.ContainerNames)
            ∨ ∃ occ ∈ occs, matchKey occ = p.1 ∧ c ∈ occ.ContainerNames)
      ∧ (∀ k : Str, (∃ p ∈ occs.foldl addMatch mm, p.1 = k) ↔
            (∃ p ∈ mm, p.1 = k) ∨ ∃ occ ∈ occs, matchKey occ = k)
      ∧ (∀ p ∈ occs.foldl addMatch mm,
          p.2.ContainerNames.Nodup
          ∨ (p ∈ mm ∧ occs.countP (fun x => matchKey x == p.1) = 0)
          ∨ ((∀ q ∈ mm, q.1 ≠ p.1) ∧ occs.countP (fun x => matchKey x == p.1) = 1
              ∧ ∃ occ ∈ occs, matchKey occ = p.1 ∧ p.2 = occ)) := by
  intro occs
  induction occs with
  | nil =>
    intro mm hkey hnd
    refine ⟨hkey, hnd, ?_, ?_, ?_⟩
    · intro p hp c
      simp only [List.foldl_nil] at hp
      constructor
      · intro hc
        exact Or.inl ⟨p, hp, rfl, hc⟩
      · rintro (⟨q, hq, hqk, hc⟩ | ⟨occ, hocc, -⟩)
        · have : q = (p.1, p.2) := key_entry_unique p.1 p.2 mm hnd hp q hq hqk
          rw [this] at hc
          exact hc
        · exact absurd hocc (List.not_mem_nil _)
    · intro k
      simp only [List.foldl_nil]
      constructor
      · rintro ⟨p, hp, hpk⟩; exact Or.inl ⟨p, hp, hpk⟩
      · rintro (⟨p, hp, hpk⟩ | ⟨occ, hocc, -⟩)
        · exact ⟨p, hp, hpk⟩
        · exact absurd hocc (List.not_mem_nil _)
    · intro p hp
      simp only [List.foldl_nil] at hp
      exact Or.inr (Or.inl ⟨hp, by simp⟩)
  | cons o occs ih =>
    intro mm hkey hnd
    simp only [List.foldl_cons]
    rcases hl : lookupMatch (matchKey o) mm with _ | existing
    · -- fresh key: addMatch appends (matchKey o, o)
      have hnone : ∀ p ∈ mm, p.1 ≠ matchKey o := (lookupMatch_eq_none _ mm).mp hl
      have hadd : addMatch mm o = mm ++ [(matchKey o, o)] := by
        simp only [addMatch, hl]
        exact storeMatch_eq_append _ _ mm hnone
      rw [hadd]
      have hkey1 : ∀ p ∈ mm ++ [(matchKey o, o)], matchKey p.2 = p.1 := by
        intro p hp
        rcases List.mem_append.mp hp with h | h
        · exact hkey p h
        · simp only [List.mem_singleton] at h
          subst h
          rfl
      have hnd1 : ((mm ++ [(matchKey o, o)]).map Prod.fst).Nodup := by
        have hni : matchKey o ∉ mm.map Prod.fst := by
          intro hc
          rcases List.mem_map.mp hc with ⟨p, hp, hpk⟩
          exact hnone p hp hpk
        simp [List.nodup_append, hnd, hni]
      obtain ⟨ih1, ih2, ih3, ih4, ih5⟩ := ih (mm ++ [(matchKey o, o)]) hkey1 hnd1
      refine ⟨ih1, ih2, ?_, ?_, ?_⟩
      · intro p hp c
        rw [ih3 p hp c]
        simp only [List.mem_append, List.mem_cons, List.not_mem_nil, or_false]
        constructor
        · rintro (⟨q, hq | rfl, hqk, hc⟩ | ⟨occ, hocc, hok, hc⟩)
          · exact Or.inl ⟨q, hq, hqk, hc⟩
          · exact Or.inr ⟨o, Or.inl rfl, hqk, hc⟩
          · exact Or.inr ⟨occ, Or.inr hocc, hok, hc⟩
        · rintro (⟨q, hq, hqk, hc⟩ | ⟨occ, rfl | hocc, hok, hc⟩)
          · exact Or.inl ⟨q, Or.inl hq, hqk, hc⟩
          · exact Or.inl ⟨(matchKey occ, occ), Or.inr rfl, hok, hc⟩
          · exact Or.inr ⟨occ, hocc, hok, hc⟩
      · intro k
        rw [ih4 k]
        simp only [List.mem_append, List.mem_cons, List.not_mem_nil, or_false]
        constructor
        · rintro (⟨p, hp | rfl, hpk⟩ | ⟨occ, hocc, hok⟩)
          · exact Or.inl ⟨p, hp, hpk⟩
          · exact Or.inr ⟨o, Or.inl rfl, hpk⟩
          · exact Or.inr ⟨occ, Or.inr hocc, hok⟩
        · rintro (⟨p, hp, hpk⟩ | ⟨occ, rfl | hocc, hok⟩)
          · exact Or.inl ⟨p, Or.inl hp, hpk⟩
          · exact Or.inl ⟨(matchKey occ, occ), Or.inr rfl, hok⟩
          · exact Or.inr ⟨occ, hocc, hok⟩
      · intro p hp
        rcases ih5 p hp with hnodup | ⟨hpm, hcnt⟩ | ⟨hnot, hcnt, occ, hocc, hok, heq⟩
        · exact Or.inl hnodup
        · rcases List.mem_append.mp hpm with h | h
          · refine Or.inr (Or.inl ⟨h, ?_⟩)
            rw [List.countP_cons]
            have hb : (matchKey o == p.1) = false :=
              beq_eq_false_iff_ne.mpr fun hc => hnone p h hc.symm
            simp [hb, hcnt]
          · simp only [List.mem_singleton] at h
            subst h
            refine Or.inr (Or.inr ⟨hnone, ?_, o, List.mem_cons_self _ _, rfl, rfl⟩)
            rw [List.countP_cons]
            simp [hcnt]
        · refine Or.inr (Or.inr ⟨?_, ?_, occ, List.mem_cons_of_mem _ hocc, hok, heq⟩)
          · intro q hq
            exact hnot q (List.mem_append_left _ hq)
          · have hne : (matchKey o == p.1) = false :=
              beq_eq_false_iff_ne.mpr (hnot (matchKey o, o) (by simp))
            rw [List.countP_cons]
            simp [hne, hcnt]
    · -- key already present: the entry is merged
      have hmem0 : (matchKey o, existing) ∈ mm := lookupMatch_eq_some_mem _ _ mm hl
      have hkex : matchKey existing = matchKey o := hkey (matchKey o, existing) hmem0
      have hexk : ∃ p ∈ mm, p.1 = matchKey o := ⟨(matchKey o, existing), hmem0, rfl⟩
      have hadd : addMatch mm o = storeMatch (matchKey o)
          { existing with ContainerNames := mergeNames existing.ContainerNames o.ContainerNames }
          mm := by
        simp only [addMatch, hl]
      rw [hadd]
      set merged : MatchingDeployment :=
        { existing with ContainerNames := mergeNames existing.ContainerNames o.ContainerNames }
        with hmerged
      have hkm : matchKey merged = matchKey o := by
        rw [hmerged]
        show matchKey existing = matchKey o
        exact hkex
      have hmemchar := mem_storeMatch (matchKey o) merged existing mm hnd hmem0
      have hkey1 : ∀ p ∈ storeMatch (matchKey o) merged mm, matchKey p.2 = p.1 := by
        intro p hp
        rcases (hmemchar p).mp hp with rfl | ⟨hpm, -⟩
        · exact hkm
        · exact hkey p hpm
      have hnd1 : ((storeMatch (matchKey o) merged mm).map Prod.fst).Nodup := by
        rw [storeMatch_map_fst _ _ mm hexk]
        exact hnd
      obtain ⟨ih1, ih2, ih3, ih4, ih5⟩ := ih (storeMatch (matchKey o) merged mm) hkey1 hnd1
      have hku := key_entry_unique (matchKey o) existing mm hnd hmem0
      have hmn : ∀ c : Str, c ∈ merged.ContainerNames ↔
          c ∈ existing.ContainerNames ∨ c ∈ o.ContainerNames := by
        intro c
        rw [hmerged]
        exact mem_mergeNames _ _ c
      refine ⟨ih1, ih2, ?_, ?_, ?_⟩
      · intro p hp c
        rw [ih3 p hp c]
        constructor
        · rintro (⟨q, hq, hqk, hc⟩ | ⟨occ, hocc, hok, hc⟩)
          · rcases (hmemchar q).mp hq with rfl | ⟨hqm, hqk2⟩
            · simp only at hqk hc
              rcases (hmn c).mp hc with hce | hco
              · exact Or.inl ⟨(matchKey o, existing), hmem0, hqk, hce⟩
              · exact Or.inr ⟨o, List.mem_cons_self _ _, hqk, hco⟩
            · exact Or.inl ⟨q, hqm, hqk, hc⟩
          · exact Or.inr ⟨occ, List.mem_cons_of_mem _ hocc, hok, hc⟩
        · rintro (⟨q, hq, hqk, hc⟩ | ⟨occ, hocc, hok, hc⟩)
          · by_cases hqko : q.1 = matchKey o
            · have hqe : q = (matchKey o, existing) := hku q hq hqko
              subst hqe
              refine Or.inl ⟨(matchKey o, merged), (hmemchar _).mpr (Or.inl rfl), hqk, ?_⟩
              exact (hmn c).mpr (Or.inl hc)
            · exact Or.inl ⟨q, (hmemchar q).mpr (Or.inr ⟨hq, hqko⟩), hqk, hc⟩
          · rcases List.mem_cons.mp hocc with rfl | hocc2
            · refine Or.inl ⟨(matchKey occ, merged), (hmemchar _).mpr (Or.inl rfl), hok, ?_⟩
              exact (hmn c).mpr (Or.inr hc)
            · exact Or.inr ⟨occ, hocc2, hok, hc⟩
      · intro k
        rw [ih4 k]
        constructor
        · rintro (⟨p, hp, hpk⟩ | ⟨occ, hocc, hok⟩)
          · rcases (hmemchar p).mp hp with rfl | ⟨hpm, -⟩
            · exact Or.inl ⟨(matchKey o, existing), hmem0, hpk⟩
            · exact Or.inl ⟨p, hpm, hpk⟩
          · exact Or.inr ⟨occ, List.mem_cons_of_mem _ hocc, hok⟩
        · rintro (⟨p, hp, hpk⟩ | ⟨occ, hocc, hok⟩)
          · by_cases hpko : p.1 = matchKey o
            · refine Or.inl ⟨(matchKey o, merged), (hmemchar _).mpr (Or.inl rfl), ?_⟩
              rw [← hpko]
              exact hpk
            · exact Or.inl ⟨p, (hmemchar p).mpr (Or.inr ⟨hp, hpko⟩), hpk⟩
          · rcases List.mem_cons.mp hocc with rfl | hocc2
            · exact Or.inl ⟨(matchKey occ, merged), (hmemchar _).mpr (Or.inl rfl), hok⟩
            · exact Or.inr ⟨occ, hocc2, hok⟩
      · intro p hp
        rcases ih5 p hp with hnodup | ⟨hpm, hcnt⟩ | ⟨hnot, hcnt, occ, hocc, hok, heq⟩
        · exact Or.inl hnodup
        · rcases (hmemchar p).mp hpm with rfl | ⟨hpm2, hpk⟩
          · refine Or.inl ?_
            show merged.ContainerNames.Nodup
            rw [hmerged]
            exact mergeNames_nodup _ _
          · refine Or.inr (Or.inl ⟨hpm2, ?_⟩)
            rw [List.countP_cons]
            have hb : (matchKey o == p.1) = false :=
              beq_eq_false_iff_ne.mpr fun hc => hpk hc.symm
            simp [hb, hcnt]
        · have hkne : matchKey o ≠ p.1 :=
            hnot (matchKey o, merged) ((hmemchar _).mpr (Or.inl rfl))
          refine Or.inr (Or.inr ⟨?_, ?_, occ, List.mem_cons_of_mem _ hocc, hok, heq⟩)
          · intro q hq
            by_cases hqko : q.1 = matchKey o
            · rw [hqko]
              exact hkne
            · exact hnot q ((hmemchar q).mpr (Or.inr ⟨hq, hqko⟩))
          · have hb : (matchKey o == p.1) = false := beq_eq_false_iff_ne.mpr hkne
            rw [List.countP_cons]
            simp [hb, hcnt]

/-- C2: in one reconciliation pass over an accepted envelope, whatever each
cluster listing returns, the restart targets carry pairwise-distinct
`(namespace, name)` pairs — so `RestartDeployment` is invoked at most once
per pair; a target's container names are exactly the union of the container
names of every processed match sharing its map key; a target matched by two
or more processed matches has deduplicated container names; and a key is
restarted exactly when some processed match bears it. -/
theorem kuberollout_c2 (listing : Str → Option (List MatchingDeployment)) (evt : Event) :
    ((workerRestartTargets listing evt).map nsName).Nodup
    ∧ (∀ m ∈ workerRestartTargets listing evt, ∀ c : Str,
        c ∈ m.ContainerNames ↔
          ∃ occ ∈ collectedMatches listing evt.ImageRefs,
            matchKey occ = matchKey m ∧ c ∈ occ.ContainerNames)
    ∧ (∀ m ∈ workerRestartTargets listing evt,
        2 ≤ (collectedMatches listing evt.ImageRefs).countP
            (fun x => matchKey x == matchKey m) →
        m.ContainerNames.Nodup)
    ∧ (∀ k : Str, (∃ m ∈ workerRestartTargets listing evt, matchKey m = k) ↔
        ∃ occ ∈ collectedMatches listing evt.ImageRefs, matchKey occ = k) := by
  obtain ⟨h1, h2, h3, h4, h5⟩ :=
    buildMatchMap_invariant (collectedMatches listing evt.ImageRefs) []
      (by simp) (by simp)
  have htgt : workerRestartTargets listing evt
      = (buildMatchMap (collectedMatches listing evt.ImageRefs)).map Prod.snd := rfl
  have hbm : buildMatchMap (collectedMatches listing evt.ImageRefs)
      = (collectedMatches listing evt.ImageRefs).foldl addMatch [] := rfl
  rw [htgt, hbm]
  set mm' := (collectedMatches listing evt.ImageRefs).foldl addMatch [] with hmm
  refine ⟨?_, ?_, ?_, ?_⟩
  · -- distinct (namespace, name) pairs
    have hfst : mm'.map Prod.fst = (mm'.map Prod.snd).map (fun m => matchKey m) := by
      rw [List.map_map]
      exact List.map_congr_left fun p hp => (h1 p hp).symm
    have hkeys : ((mm'.map Prod.snd).map (fun m => matchKey m)).Nodup := hfst ▸ h2
    have hjoin : (mm'.map Prod.snd).map (fun m => matchKey m)
        = ((mm'.map Prod.snd).map nsName).map (fun x => x.1 ++ '/' :: x.2) := by
      simp only [List.map_map]
      exact List.map_congr_left fun p hp => rfl
    rw [hjoin] at hkeys
    exact hkeys.of_map _
  · intro m hm c
    rcases List.mem_map.mp hm with ⟨p, hp, rfl⟩
    have := h3 p hp c
    simp only [List.not_mem_nil, false_and, exists_const, exists_false, false_or] at this
    rw [this, h1 p hp]
  · intro m hm hcnt
    rcases List.mem_map.mp hm with ⟨p, hp, rfl⟩
    rcases h5 p hp with hnodup | ⟨hpm, -⟩ | ⟨-, hone, -⟩
    · exact hnodup
    · exact absurd hpm (List.not_mem_nil _)
    · rw [h1 p hp] at hcnt
      omega
  · intro k
    have hh := h4 k
    simp only [List.not_mem_nil, false_and, exists_const, exists_false, false_or] at hh
    rw [← hh]
    constructor
    · rintro ⟨m, hm, hmk⟩
      rcases List.mem_map.mp hm with ⟨p, hp, rfl⟩
      exact ⟨p, hp, (h1 p hp).symm.trans hmk⟩
    · rintro ⟨p, hp, hpk⟩
      exact ⟨p.2, List.mem_map_of_mem _ hp, (h1 p hp).trans hpk⟩

/-! ### C4 — the restart patch touches exactly one annotation -/

/-- A character that needs no escaping parses literally. -/
theorem parseStringBody_cons_plain (c : Char) (h1 : c ≠ '"') (h2 : c ≠ '\\')
    (h3 : ¬c.toNat < 0x20) (cs : Str) :
    parseStringBody (c :: cs) = (parseStringBody cs).map fun (s, r) => (c :: s, r) := by
  rw [parseStringBody.eq_def]
  simp [h1, h2, h3]

/-- A string of plain characters parses back to itself, up to its closing
quote. -/
theorem parseStringBody_plain (s : Str) (h : ∀ c ∈ s, plainChar c = true) (rest : Str) :
    parseStringBody (s ++ '"' :: rest) = some (s, rest) := by
  induction s with
  | nil => rfl
  | cons c s ih =>
    have hc := h c (by simp)
    simp only [plainChar, Bool.not_eq_true', Bool.or_eq_false_iff,
      decide_eq_false_iff_not] at hc
    rw [List.cons_append,
      parseStringBody_cons_plain c hc.1.1.1.1.1.1.1 hc.1.1.1.1.1.1.2 hc.1.1.1.1.1.2,
      ih fun x hx => h x (by simp [hx])]
    rfl

/-- `skipWs` keeps a non-whitespace head. -/
theorem skipWs_cons (c : Char) (cs : Str) (h : isJsonWs c = false) :
    skipWs (c :: cs) = c :: cs := by
  simp [skipWs, h]

/-- A quoted plain string parses as a JSON string value, at any fuel. -/
theorem parseVal_quoted (f : Nat) (s : Str) (h : ∀ c ∈ s, plainChar c = true)
    (rest : Str) :
    parseVal (f + 1) ('"' :: (s ++ '"' :: rest)) = some (.str s, rest) := by
  rw [parseVal.eq_def]
  rw [skipWs_cons '"' (s ++ '"' :: rest) (by decide)]
  simp [parseStringBody_plain s h rest]

/-- A single-member object whose key is plain and whose value text parses
with the closing brace following parses as that object. -/
theorem parseVal_obj_single (f : Nat) (key : Str) (hkey : ∀ c ∈ key, plainChar c = true)
    (valtxt : Str) (v : Json) (rest : Str)
    (hval : parseVal f valtxt = some (v, rbrace :: rest)) :
    parseVal (f + 2) (lbrace :: '"' :: (key ++ '"' :: ':' :: valtxt))
      = some (.obj [(key, v)], rest) := by
  have h1 : parseMembers (f + 1) ('"' :: (key ++ '"' :: ':' :: valtxt))
      = some ([(key, v)], rest) := by
    rw [parseMembers.eq_def]
    rw [skipWs_cons '"' (key ++ '"' :: ':' :: valtxt) (by decide)]
    simp only [parseStringBody_plain key hkey]
    rw [skipWs_cons ':' valtxt (by decide)]
    simp only [hval]
    rw [skipWs_cons rbrace rest (by decide)]
    simp [rbrace]
  calc parseVal (f + 2) (lbrace :: '"' :: (key ++ '"' :: ':' :: valtxt))
      = (parseMembers (f + 1) ('"' :: (key ++ '"' :: ':' :: valtxt))).map
          (fun ms => (Json.obj ms.1, ms.2)) := rfl
    _ = some (.obj [(key, v)], rest) := by rw [h1]; rfl

/-- C4: the request `RestartDeployment` issues is a strategic-merge patch to
the given namespace and name whose body denotes exactly the JSON object
`spec.template.metadata.annotations` carrying the single
`kubectl.kubernetes.io/restartedAt` annotation with the timestamp as value —
no other field appears in the patch. The timestamp (Go:
`time.Now().UTC().Format(time.RFC3339)`) is a parameter consisting of plain
characters, as RFC3339 output always does. -/
theorem kuberollout_c4 (ts ns name : Str) (hts : ∀ c ∈ ts, plainChar c = true) :
    (RestartDeployment ts ns name).Ptype = PatchType.strategicMerge
    ∧ (RestartDeployment ts ns name).Namespace = ns
    ∧ (RestartDeployment ts ns name).Name = name
    ∧ (RestartDeployment ts ns name).Body = restartPatchBody ts
    ∧ parseJsonDoc (restartPatchBody ts) = some (restartPatchJson ts, []) := by
  refine ⟨rfl, rfl, rfl, rfl, ?_⟩
  have hbody : restartPatchBody ts = lbrace :: '"' :: ("spec".data ++ '"' :: ':' ::
      (lbrace :: '"' :: ("template".data ++ '"' :: ':' ::
      (lbrace :: '"' :: ("metadata".data ++ '"' :: ':' ::
      (lbrace :: '"' :: ("annotations".data ++ '"' :: ':' ::
      (lbrace :: '"' :: ("kubectl.kubernetes.io/restartedAt".data ++ '"' :: ':' ::
      ('"' :: (ts ++ '"' :: [rbrace, rbrace, rbrace, rbrace, rbrace]))))))))))) := by
    simp [restartPatchBody, List.append_assoc]
  have hstr : parseVal (ts.length + 81 + 1)
      ('"' :: (ts ++ '"' :: [rbrace, rbrace, rbrace, rbrace, rbrace]))
      = some (.str ts, [rbrace, rbrace, rbrace, rbrace, rbrace]) :=
    parseVal_quoted (ts.length + 81) ts hts _
  have h5 := parseVal_obj_single (ts.length + 81 + 1)
    ("kubectl.kubernetes.io/restartedAt".data) (by decide) _ _ _ hstr
  have h4 := parseVal_obj_single (ts.length + 81 + 3)
    ("annotations".data) (by decide) _ _ _ h5
  have h3 := parseVal_obj_single (ts.length + 81 + 5)
    ("metadata".data) (by decide) _ _ _ h4
  have h2 := parseVal_obj_single (ts.length + 81 + 7)
    ("template".data) (by decide) _ _ _ h3
  have h1 := parseVal_obj_single (ts.length + 81 + 9)
    ("spec".data) (by decide) _ _ _ h2
  have hfl : (restartPatchBody ts).length + 1 = ts.length + 81 + 9 + 2 := by
    rw [hbody]
    simp only [List.length_cons, List.length_append, List.length_nil]
    have e1 : ("spec".data).length = 4 := rfl
    have e2 : ("template".data).length = 8 := rfl
    have e3 : ("metadata".data).length = 8 := rfl
    have e4 : ("annotations".data).length = 11 := rfl
    have e5 : ("kubectl.kubernetes.io/restartedAt".data).length = 33 := rfl
    omega
  unfold parseJsonDoc
  rw [hfl, hbody]
  exact h1

/-- Witness for C4 at a concrete RFC3339 timestamp. -/
theorem kuberollout_c4_witness :
    parseJsonDoc (restartPatchBody ("2024-01-01T00:00:00Z".data))
      = some (restartPatchJson ("2024-01-01T00:00:00Z".data), []) :=
  (kuberollout_c4 ("2024-01-01T00:00:00Z".data) ("default".data) ("app".data)
    (by decide)).2.2.2.2

/-! ### C7 — the serialize-then-parse round trip

The escape-inverse lemmas mirror `json.Marshal`'s escaping against the
embedded scanner; the round trip then composes the string, array, and object
cases at linearly bounded fuel. -/

/-- Hex digit en/decoding round trip, for values below 16. -/
theorem hexVal_hexDigit : ∀ n : Nat, n < 16 → hexVal (hexDigit n) = some n := by decide

/-- Char.ofNat/toNat round trip. -/
theorem char_ofNat_toNat (c : Char) : Char.ofNat c.toNat = c := Char.ofNat_toNat c

/-- Unfolding of `parseStringBody` on a non-surrogate `\u` escape: whether
or not another escape follows, the decoded character is consed on and parsing
continues with the remaining input. -/
theorem parseStringBody_u_escape (d1 d2 d3 d4 : Char) (n : Nat) (t : Str)
    (hhex : hex4 d1 d2 d3 d4 = some n) (hsur : isSurrogate n = false) :
    parseStringBody ('\\' :: 'u' :: d1 :: d2 :: d3 :: d4 :: t)
      = (parseStringBody t).map fun (s, r) => (Char.ofNat n :: s, r) := by
  rw [parseStringBody.eq_def]
  split
  · rename_i heq
    simp at heq
  · rename_i heq
    simp only [List.cons.injEq] at heq
    obtain ⟨-, -, rfl, rfl, rfl, rfl, rfl⟩ := heq
    simp only [hhex, hsur]
    rfl
  · rename_i heq
    simp only [List.cons.injEq] at heq
    obtain ⟨-, -, rfl, rfl, rfl, rfl, rfl⟩ := heq
    simp only [hhex, hsur]
    rfl
  · rename_i hno4 hno6 heq
    simp only [List.cons.injEq] at heq
    obtain ⟨-, rfl, heqr⟩ := heq
    exact absurd heqr (by intro hr; exact hno6 d1 d2 d3 d4 t rfl hr.symm)
  · rename_i hno heq
    simp only [List.cons.injEq] at heq
    obtain ⟨heq1, heqr⟩ := heq
    exact absurd heqr (by intro hr; exact hno 'u' (d1 :: d2 :: d3 :: d4 :: t) heq1.symm hr.symm)
  · rename_i heq
    simp at heq

/-- Parsing one escaped character undoes `escapeChar`, whatever follows. -/
theorem parseStringBody_escape (c : Char) (t : Str) :
    parseStringBody (escapeChar c ++ t)
      = (parseStringBody t).map fun (s, r) => (c :: s, r) := by
  by_cases h1 : c = '"'
  · subst h1; rfl
  · by_cases h2 : c = '\\'
    · subst h2; rfl
    · by_cases h3 : c = '\n'
      · subst h3; rfl
      · by_cases h4 : c = '\r'
        · subst h4; rfl
        · by_cases h5 : c = '\t'
          · subst h5; rfl
          · by_cases h6 : c.toNat < 0x20 || c = '<' || c = '>' || c = '&'
            · have hlt : c.toNat < 256 := by
                simp only [Bool.or_eq_true, decide_eq_true_eq] at h6
                rcases h6 with ((h | h) | h) | h
                · omega
                · subst h; decide
                · subst h; decide
                · subst h; decide
              have hesc : escapeChar c
                  = ['\\', 'u', '0', '0', hexDigit (c.toNat / 16), hexDigit (c.toNat % 16)] := by
                rw [escapeChar]
                simp [h1, h2, h3, h4, h5, h6]
              have hhex : hex4 '0' '0' (hexDigit (c.toNat / 16)) (hexDigit (c.toNat % 16))
                  = some c.toNat := by
                have hv1 : hexVal (hexDigit (c.toNat / 16)) = some (c.toNat / 16) :=
                  hexVal_hexDigit _ (by omega)
                have hv2 : hexVal (hexDigit (c.toNat % 16)) = some (c.toNat % 16) :=
                  hexVal_hexDigit _ (by omega)
                have hv0 : hexVal '0' = some 0 := rfl
                rw [hex4]
                rw [hv0, hv1, hv2]
                simp
                omega
              have hsur : isSurrogate c.toNat = false := by
                simp only [isSurrogate]
                simp
                omega
              rw [hesc, List.cons_append, List.cons_append, List.cons_append,
                List.cons_append, List.cons_append, List.cons_append, List.nil_append,
                parseStringBody_u_escape _ _ _ _ _ _ hhex hsur, char_ofNat_toNat]
            · by_cases h7 : c = Char.ofNat 0x2028 || c = Char.ofNat 0x2029
              · have hesc : escapeChar c
                    = ['\\', 'u', '2', '0', '2', hexDigit (c.toNat % 16)] := by
                  rw [escapeChar]
                  simp [h1, h2, h3, h4, h5, h6, h7]
                simp only [Bool.or_eq_true, decide_eq_true_eq] at h7
                rcases h7 with h7 | h7
                · subst h7
                  rw [hesc]
                  have hhex : hex4 '2' '0' '2' (hexDigit ((Char.ofNat 0x2028).toNat % 16))
                      = some 0x2028 := by decide
                  rw [List.cons_append, List.cons_append, List.cons_append,
                    List.cons_append, List.cons_append, List.cons_append, List.nil_append,
                    parseStringBody_u_escape _ _ _ _ _ _ hhex (by decide)]
                · subst h7
                  rw [hesc]
                  have hhex : hex4 '2' '0' '2' (hexDigit ((Char.ofNat 0x2029).toNat % 16))
                      = some 0x2029 := by decide
                  rw [List.cons_append, List.cons_append, List.cons_append,
                    List.cons_append, List.cons_append, List.cons_append, List.nil_append,
                    parseStringBody_u_escape _ _ _ _ _ _ hhex (by decide)]
              · have hesc : escapeChar c = [c] := by
                  rw [escapeChar]
                  simp [h1, h2, h3, h4, h5, h6, h7]
                have hge : ¬c.toNat < 0x20 := by
                  simp only [Bool.or_eq_true, decide_eq_true_eq] at h6
                  intro hc
                  exact h6 (Or.inl (Or.inl (Or.inl hc)))
                rw [hesc, List.cons_append, List.nil_append,
                  parseStringBody_cons_plain c h1 h2 hge]

/-- Parsing a fully escaped string body recovers the original string. -/
theorem parseStringBody_escapeStr (s : Str) : ∀ rest : Str,
    parseStringBody (s.flatMap escapeChar ++ '"' :: rest) = some (s, rest) := by
  induction s with
  | nil => intro rest; rfl
  | cons c s ih =>
    intro rest
    rw [List.flatMap_cons, List.append_assoc, parseStringBody_escape, ih]
    rfl

/-- A marshalled string literal parses as the original JSON string value. -/
theorem parseVal_quoteStr (f : Nat) (s rest : Str) :
    parseVal (f + 1) (quoteStr s ++ rest) = some (.str s, rest) := by
  have hq : quoteStr s ++ rest = '"' :: (s.flatMap escapeChar ++ '"' :: rest) := by
    simp [quoteStr]
  rw [hq, parseVal.eq_def,
    skipWs_cons '"' (s.flatMap escapeChar ++ '"' :: rest) (by decide)]
  simp [parseStringBody_escapeStr]

/-- Parsing the marshalled elements of a nonempty tag list, at linear fuel. -/
theorem parseElems_tags : ∀ (ts : List Str) (t : Str) (f : Nat) (rest : Str),
    parseElems (2 * ts.length + f + 2) (marshalTagsBody (t :: ts) ++ ']' :: rest)
      = some ((t :: ts).map .str, rest) := by
  intro ts
  induction ts with
  | nil =>
    intro t f rest
    rw [show (2 * ([] : List Str).length + f + 2) = f + 2 from by simp]
    have hb : marshalTagsBody [t] ++ ']' :: rest = quoteStr t ++ ']' :: rest := rfl
    rw [hb, parseElems.eq_def]
    have h1 : parseVal (f + 1) (quoteStr t ++ ']' :: rest) = some (.str t, ']' :: rest) :=
      parseVal_quoteStr f t (']' :: rest)
    simp only [h1]
    rw [skipWs_cons ']' rest (by decide)]
    simp
  | cons t2 ts ih =>
    intro t f rest
    have hshape : marshalTagsBody (t :: t2 :: ts) ++ ']' :: rest
        = quoteStr t ++ ',' :: (marshalTagsBody (t2 :: ts) ++ ']' :: rest) := by
      show (quoteStr t ++ ',' :: marshalTagsBody (t2 :: ts)) ++ ']' :: rest = _
      simp [List.append_assoc]
    have hfl : 2 * (t2 :: ts).length + f + 2 = (2 * ts.length + (f + 1) + 2) + 1 := by
      simp [List.length_cons]
      ring
    rw [hshape, hfl, parseElems.eq_def]
    have h1 : parseVal (2 * ts.length + (f + 1) + 2)
        (quoteStr t ++ ',' :: (marshalTagsBody (t2 :: ts) ++ ']' :: rest))
        = some (.str t, ',' :: (marshalTagsBody (t2 :: ts) ++ ']' :: rest)) :=
      parseVal_quoteStr _ t _
    simp only [h1]
    rw [skipWs_cons ',' (marshalTagsBody (t2 :: ts) ++ ']' :: rest) (by decide)]
    simp only [ih t2 (f + 1) rest]
    rfl

/-- A marshalled nonempty tags array parses as the array of JSON strings. -/
theorem parseVal_marshalTags (t : Str) (ts : List Str) (f : Nat) (rest : Str) :
    parseVal (2 * (t :: ts).length + f + 3) (marshalTags (t :: ts) ++ rest)
      = some (.arr ((t :: ts).map .str), rest) := by
  have hshape : marshalTags (t :: ts) ++ rest
      = '[' :: (marshalTagsBody (t :: ts) ++ ']' :: rest) := by
    simp [marshalTags, List.append_assoc]
  have hhead : ∃ zs, marshalTagsBody (t :: ts) ++ ']' :: rest = '"' :: zs := by
    cases ts with
    | nil =>
      exact ⟨(t.flatMap escapeChar ++ ['"']) ++ ']' :: rest,
        by simp [marshalTagsBody, quoteStr, List.append_assoc]⟩
    | cons t2 ts' =>
      refine ⟨(t.flatMap escapeChar ++ ['"'])
        ++ ',' :: (marshalTagsBody (t2 :: ts') ++ ']' :: rest), ?_⟩
      show (quoteStr t ++ ',' :: marshalTagsBody (t2 :: ts')) ++ ']' :: rest = _
      simp [quoteStr, List.append_assoc]
  obtain ⟨zs, hz⟩ := hhead
  have hfl : 2 * (t :: ts).length + f + 3 = (2 * ts.length + (f + 2) + 2) + 1 := by
    simp [List.length_cons]
    ring
  have helems := parseElems_tags ts t (f + 2) rest
  rw [hz] at helems
  rw [hshape, hz, hfl]
  calc parseVal ((2 * ts.length + (f + 2) + 2) + 1) ('[' :: '"' :: zs)
      = (parseElems (2 * ts.length + (f + 2) + 2) ('"' :: zs)).map
          (fun es => (Json.arr es.1, es.2)) := rfl
    _ = some (.arr ((t :: ts).map .str), rest) := by rw [helems]; rfl

/-- The canonical serialization of an envelope with a nonempty tag list
parses as the corresponding two-member JSON object, at linear fuel. -/
theorem parseVal_ToJSON (e : Event) (t : Str) (ts : List Str) (he : e.Tags = t :: ts)
    (f : Nat) (rest : Str) :
    parseVal (2 * e.Tags.length + f + 7) (Event.ToJSON e ++ rest)
      = some (eventJson e, rest) := by
  have hqi : quoteStr ("image".data) = '"' :: 'i' :: 'm' :: 'a' :: 'g' :: 'e' :: '"' :: [] := by
    rfl
  have hqt : quoteStr ("tags".data) = '"' :: 't' :: 'a' :: 'g' :: 's' :: '"' :: [] := by
    rfl
  have hb : Event.ToJSON e ++ rest = lbrace :: '"' :: ("image".data ++ '"' :: ':' ::
      (quoteStr e.Image ++ ',' :: '"' :: ("tags".data ++ '"' :: ':' ::
        (marshalTags e.Tags ++ rbrace :: rest)))) := by
    show (lbrace :: (quoteStr ("image".data) ++ ':' :: quoteStr e.Image
      ++ ',' :: quoteStr ("tags".data) ++ ':' :: marshalTags e.Tags ++ [rbrace])) ++ rest = _
    rw [hqi, hqt]
    simp [List.append_assoc]
  set n := e.Tags.length with hn
  have hm2 : parseMembers (2 * n + f + 5)
      ('"' :: ("tags".data ++ '"' :: ':' :: (marshalTags e.Tags ++ rbrace :: rest)))
      = some ([("tags".data, .arr (e.Tags.map .str))], rest) := by
    rw [show 2 * n + f + 5 = (2 * n + f + 4) + 1 from by ring, parseMembers.eq_def]
    rw [skipWs_cons '"' ("tags".data ++ '"' :: ':' :: (marshalTags e.Tags ++ rbrace :: rest))
      (by decide)]
    simp only [parseStringBody_plain ("tags".data) (by decide)]
    rw [skipWs_cons ':' (marshalTags e.Tags ++ rbrace :: rest) (by decide)]
    have harr : parseVal (2 * n + f + 4) (marshalTags e.Tags ++ rbrace :: rest)
        = some (.arr (e.Tags.map .str), rbrace :: rest) := by
      rw [he, hn, he]
      rw [show 2 * (t :: ts).length + f + 4 = 2 * (t :: ts).length + (f + 1) + 3 from by ring]
      exact parseVal_marshalTags t ts (f + 1) (rbrace :: rest)
    simp only [harr]
    rw [skipWs_cons rbrace rest (by decide)]
    simp [rbrace]
  have hm1 : parseMembers (2 * n + f + 6)
      ('"' :: ("image".data ++ '"' :: ':' :: (quoteStr e.Image ++ ',' :: '"' ::
        ("tags".data ++ '"' :: ':' :: (marshalTags e.Tags ++ rbrace :: rest)))))
      = some ([("image".data, .str e.Image), ("tags".data, .arr (e.Tags.map .str))], rest) := by
    rw [show 2 * n + f + 6 = (2 * n + f + 5) + 1 from by ring, parseMembers.eq_def]
    rw [skipWs_cons '"' ("image".data ++ '"' :: ':' :: (quoteStr e.Image ++ ',' :: '"' ::
      ("tags".data ++ '"' :: ':' :: (marshalTags e.Tags ++ rbrace :: rest)))) (by decide)]
    simp only [parseStringBody_plain ("image".data) (by decide)]
    rw [skipWs_cons ':' (quoteStr e.Image ++ ',' :: '"' ::
      ("tags".data ++ '"' :: ':' :: (marshalTags e.Tags ++ rbrace :: rest))) (by decide)]
    have hstr : parseVal (2 * n + f + 5) (quoteStr e.Image ++ ',' :: '"' ::
        ("tags".data ++ '"' :: ':' :: (marshalTags e.Tags ++ rbrace :: rest)))
        = some (.str e.Image, ',' :: '"' ::
            ("tags".data ++ '"' :: ':' :: (marshalTags e.Tags ++ rbrace :: rest))) := by
      rw [show 2 * n + f + 5 = (2 * n + f + 4) + 1 from by ring]
      exact parseVal_quoteStr _ _ _
    simp only [hstr]
    rw [skipWs_cons ',' ('"' :: ("tags".data ++ '"' :: ':' ::
      (marshalTags e.Tags ++ rbrace :: rest))) (by decide)]
    simp only [hm2]
    rfl
  rw [hb, show 2 * n + f + 7 = (2 * n + f + 6) + 1 from by ring]
  calc parseVal ((2 * n + f + 6) + 1) (lbrace :: '"' :: ("image".data ++ '"' :: ':' ::
        (quoteStr e.Image ++ ',' :: '"' :: ("tags".data ++ '"' :: ':' ::
          (marshalTags e.Tags ++ rbrace :: rest)))))
      = (parseMembers (2 * n + f + 6) ('"' :: ("image".data ++ '"' :: ':' ::
          (quoteStr e.Image ++ ',' :: '"' :: ("tags".data ++ '"' :: ':' ::
            (marshalTags e.Tags ++ rbrace :: rest)))))).map
          (fun ms => (Json.obj ms.1, ms.2)) := rfl
    _ = some (eventJson e, rest) := by rw [hm1]; rfl

/-- The `mapM` loop over mapped string tags accumulates the tag list. -/
theorem mapM_loop_decodeTagElem (ts : List Str) : ∀ acc : List Str,
    List.mapM.loop decodeTagElem (ts.map Json.str) acc = some (acc.reverse ++ ts) := by
  induction ts with
  | nil => intro acc; simp [List.mapM.loop]
  | cons t ts ih =>
    intro acc
    show List.mapM.loop decodeTagElem (Json.str t :: ts.map Json.str) acc = _
    rw [List.mapM.loop]
    show List.mapM.loop decodeTagElem (ts.map Json.str) (t :: acc) = _
    rw [ih (t :: acc)]
    simp

/-- Decoding the mapped string tags recovers the tag list. -/
theorem mapM_decodeTagElem (ts : List Str) :
    (ts.map Json.str).mapM decodeTagElem = some ts := by
  show List.mapM.loop decodeTagElem (ts.map Json.str) [] = some ts
  rw [mapM_loop_decodeTagElem ts []]
  rfl

/-- Decoding the canonical JSON object of an envelope recovers it. -/
theorem decodeEvent_eventJson (e : Event) : decodeEvent (eventJson e) = some e := by
  calc decodeEvent (eventJson e)
      = (match (e.Tags.map Json.str).mapM decodeTagElem with
          | some ts => decodeEventMembers ⟨e.Image, ts⟩ []
          | none => none) := rfl
    _ = some e := by rw [mapM_decodeTagElem]; rfl

/-- Quoted strings are at least two characters long. -/
theorem quoteStr_length_ge (s : Str) : 2 ≤ (quoteStr s).length := by
  simp [quoteStr]

/-- The marshalled tag elements of a nonempty list take at least three
characters per tag (quotes plus separator), less the missing last comma. -/
theorem marshalTagsBody_length_ge : ∀ (ts : List Str) (t : Str),
    3 * ts.length + 2 ≤ (marshalTagsBody (t :: ts)).length := by
  intro ts
  induction ts with
  | nil =>
    intro t
    simpa using quoteStr_length_ge t
  | cons t2 ts ih =>
    intro t
    have h1 := quoteStr_length_ge t
    have h2 := ih t2
    have hb : marshalTagsBody (t :: t2 :: ts) = quoteStr t ++ ',' :: marshalTagsBody (t2 :: ts) := rfl
    rw [hb]
    simp only [List.length_append, List.length_cons]
    simp only [List.length_cons] at h2 ⊢
    omega

/-- C7 fails as stated over all envelopes: serializing the envelope with an
empty image and parsing it back does not succeed, whatever prefix is used —
validation rejects the missing image. -/
theorem kuberollout_c7_counterexample :
    ParseAndValidate (Event.ToJSON ⟨[], ["dev".data]⟩) []
      = .error "missing required field: image" := rfl

/-- C7 as amended: for every envelope that passes `ValidateEvent` with a
given prefix, parsing its canonical serialization back with that prefix
succeeds and returns a structurally equal envelope. -/
theorem kuberollout_c7_amended (e : Event) (pfx : Str)
    (hval : ValidateEvent e pfx = .ok ()) :
    ParseAndValidate (Event.ToJSON e) pfx = .ok e := by
  have hne : e.Tags ≠ [] := ((ValidateEvent_ok_iff e pfx).mp hval).2.1
  obtain ⟨t, ts, he⟩ : ∃ t ts, e.Tags = t :: ts := by
    cases htags : e.Tags with
    | nil => exact absurd htags hne
    | cons t ts => exact ⟨t, ts, rfl⟩
  have hlen : 2 * e.Tags.length + 7 ≤ (Event.ToJSON e).length + 1 := by
    have h1 := quoteStr_length_ge e.Image
    have h2 := marshalTagsBody_length_ge ts t
    have hb : Event.ToJSON e = lbrace :: (quoteStr ("image".data) ++ ':' :: quoteStr e.Image
        ++ ',' :: quoteStr ("tags".data) ++ ':' :: marshalTags e.Tags ++ [rbrace]) := rfl
    rw [hb, he]
    simp only [marshalTags, List.length_cons, List.length_append, List.length_nil]
    have hqi : (quoteStr ("image".data)).length = 7 := rfl
    have hqt : (quoteStr ("tags".data)).length = 6 := rfl
    simp only [List.length_cons] at h2
    omega
  have hfuel : (Event.ToJSON e).length + 1
      = 2 * e.Tags.length + ((Event.ToJSON e).length + 1 - 2 * e.Tags.length - 7) + 7 := by
    omega
  have hp := parseVal_ToJSON e t ts he ((Event.ToJSON e).length + 1 - 2 * e.Tags.length - 7) []
  rw [List.append_nil] at hp
  unfold ParseAndValidate
  rw [hfuel]
  simp only [hp, decodeEvent_eventJson]
  simp [jsonMore, skipWs, hval]

/-- Witness for the amended C7 at a concrete validated envelope. -/
theorem kuberollout_c7_witness :
    ParseAndValidate (Event.ToJSON ⟨"ghcr.io/t/svc".data, ["dev".data]⟩) ("ghcr.io/".data)
      = .ok ⟨"ghcr.io/t/svc".data, ["dev".data]⟩ :=
  kuberollout_c7_amended ⟨"ghcr.io/t/svc".data, ["dev".data]⟩ ("ghcr.io/".data) (by rfl)
